import Mathlib

/-!
Verification of the sekigo Go server's rules engine, session coordinator and
matchmaking queue against its natural-language specification.

The definitions below are a shallow embedding of the JavaScript source:

* the rules engine (class GoEngine, file src/unnamed/part_013) with its
  Zobrist position hasher (same file),
* the wrapper service (src/server/src/services/goEngine.js),
* the game manager / session coordinator (class GameManager, src/unnamed/part_015),
* the matchmaking service (src/server/src/services/matchmaking.js).

Modelling conventions:

* JS 2D arrays board[y][x] become lists of lists of optional colors;
  board cell access out of range yields the empty cell, which the source
  never relies on (all accesses are bounds-checked first).
* The Zobrist table is generated randomly at game creation in the source;
  here it is an explicit parameter of type ZTable.  Hashes are natural
  numbers; the source stores the hex string encoding of the 64-bit BigInt
  hash, and since that encoding is injective, membership in the string set
  previousHashes is equivalent to membership of the numeric hash in a list
  of numbers, which is how it is modelled.
* JS Map objects become association lists; JS Set objects become lists with
  membership semantics (duplicates are irrelevant to every use).
* Methods that throw become functions returning Except paired with the
  (unchanged, on the error path) state they would have mutated; in the
  source every mutation happens only after all validation has passed, so
  returning the input state on the error path is faithful.
* Unbounded BFS loops are given explicit fuel 4 * n * n + 1, an upper bound
  on the number of loop iterations: every iteration pops one queue element,
  and at most 1 + 4 * n * n elements are ever enqueued (the seed plus at
  most four neighbours for each of at most n * n newly visited cells).
-/

namespace Sekigo

/-- Stone color.  The source uses the strings black and white. -/
inductive Color where
  | black
  | white
deriving DecidableEq, Repr

/-- Opposite color, as computed inline throughout the source. -/
def Color.opponent : Color → Color
  | .black => .white
  | .white => .black

/-- A board cell: empty (JS null) or a stone. -/
abbrev Cell := Option Color

/-- A board is a 2D array indexed board[y][x] in the source. -/
abbrev Board := List (List Cell)

/-- A coordinate pair (x, y). -/
abbrev Pos := Nat × Nat

/-- Model of board[y][x].  Out-of-range access yields the empty cell; the
source always bounds-checks before accessing. -/
def cellAt (b : Board) (y x : Nat) : Cell :=
  (b.getD y []).getD x none

/-- Model of the assignment board[y][x] = v. -/
def setCell (b : Board) (y x : Nat) (v : Cell) : Board :=
  b.set y ((b.getD y []).set x v)

/-- Model of GoEngine.createEmptyBoard. -/
def createEmptyBoard (size : Nat) : Board :=
  List.replicate size (List.replicate size none)

/-- Model of GoEngine.getAdjacentPositions: neighbours in the order
left, right, up, down, each guarded by a bounds check. -/
def getAdjacentPositions (x y boardSize : Nat) : List Pos :=
  (if 0 < x then [(x - 1, y)] else []) ++
  (if x < boardSize - 1 then [(x + 1, y)] else []) ++
  (if 0 < y then [(x, y - 1)] else []) ++
  (if y < boardSize - 1 then [(x, y + 1)] else [])

/-- BFS loop of GoEngine.getGroup.  Arguments: fuel, queue, visited set,
accumulated group (in discovery order, as the source pushes). -/
def getGroupAux (board : Board) (color : Color) (boardSize : Nat) :
    Nat → List Pos → List Pos → List Pos → List Pos
  | 0, _, _, group => group
  | _ + 1, [], _, group => group
  | fuel + 1, p :: queue, visited, group =>
    if p ∈ visited then
      getGroupAux board color boardSize fuel queue visited group
    else if cellAt board p.2 p.1 = some color then
      let adjs := (getAdjacentPositions p.1 p.2 boardSize).filter
        (fun a => !decide (a ∈ p :: visited) && decide (cellAt board a.2 a.1 = some color))
      getGroupAux board color boardSize fuel (queue ++ adjs) (p :: visited) (group ++ [p])
    else
      getGroupAux board color boardSize fuel queue (p :: visited) group

/-- Model of GoEngine.getGroup: the connected same-color group through the
stone at (x, y), or the empty list when that cell does not hold the color.
The source derives the board size from board.length. -/
def getGroup (board : Board) (x y : Nat) (color : Color) : List Pos :=
  if cellAt board y x = some color then
    getGroupAux board color board.length (board.length * board.length * 4 + 1) [(x, y)] [] []
  else []

/-- Inner loop of GoEngine.groupHasLiberties over one cell's neighbours:
skip neighbours already checked, return none on the first empty neighbour
(the early return true of the source), otherwise accumulate the checked
set. -/
def checkedAdjScan (board : Board) : List Pos → List Pos → Option (List Pos)
  | [], checked => some checked
  | a :: rest, checked =>
    if a ∈ checked then checkedAdjScan board rest checked
    else if cellAt board a.2 a.1 = none then none
    else checkedAdjScan board rest (a :: checked)

/-- Outer loop of GoEngine.groupHasLiberties over the group members,
threading the checked set. -/
def groupHasLibertiesAux (board : Board) (boardSize : Nat) :
    List Pos → List Pos → Bool
  | [], _ => false
  | p :: rest, checked =>
    match checkedAdjScan board (getAdjacentPositions p.1 p.2 boardSize) checked with
    | none => true
    | some checked2 => groupHasLibertiesAux board boardSize rest checked2

/-- Model of GoEngine.groupHasLiberties: true iff some neighbour of some
group member is empty, computed with the source's checked set.  The
source derives the board size from board.length. -/
def groupHasLiberties (board : Board) (group : List Pos) : Bool :=
  groupHasLibertiesAux board board.length group []

/-- Loop of GoEngine.findCapturedGroups over the neighbours of the placed
stone, threading the checked set (which deduplicates groups reached from
two different neighbours) and the accumulated captured groups. -/
def findCapturedGroupsAux (board : Board) (opponentColor : Color) :
    List Pos → List Pos → List (List Pos) → List (List Pos)
  | [], _, acc => acc
  | p :: rest, checked, acc =>
    if cellAt board p.2 p.1 = some opponentColor then
      if p ∈ checked then findCapturedGroupsAux board opponentColor rest checked acc
      else
        let group := getGroup board p.1 p.2 opponentColor
        let checked2 := checked ++ group
        if groupHasLiberties board group then
          findCapturedGroupsAux board opponentColor rest checked2 acc
        else
          findCapturedGroupsAux board opponentColor rest checked2 (acc ++ [group])
    else findCapturedGroupsAux board opponentColor rest checked acc

/-- Model of GoEngine.findCapturedGroups: the liberty-less opponent groups
adjacent to a stone of the given color placed at (x, y). -/
def findCapturedGroups (board : Board) (x y : Nat) (color : Color) : List (List Pos) :=
  findCapturedGroupsAux board color.opponent (getAdjacentPositions x y board.length) [] []

/-- Removal of all stones of one captured group (the source sets each
board[pos.y][pos.x] = null). -/
def removeGroup (b : Board) (g : List Pos) : Board :=
  g.foldl (fun acc p => setCell acc p.2 p.1 none) b

/-- Removal of all captured groups in order. -/
def removeGroups (b : Board) (gs : List (List Pos)) : Board :=
  gs.foldl removeGroup b

/-- A Zobrist table: the random per-(coordinate, color) fingerprint values
generated by ZobristHasher.generateTable, externalized as a parameter. -/
abbrev ZTable := Nat → Nat → Color → Nat

/-- Model of ZobristHasher.hashBoard: XOR of the table entries of every
occupied cell, starting from 0. -/
def hashBoard (table : ZTable) (boardSize : Nat) (board : Board) : Nat :=
  (List.range boardSize).foldl (fun h y =>
    (List.range boardSize).foldl (fun h2 x =>
      match cellAt board y x with
      | some c => h2 ^^^ table y x c
      | none => h2) h) 0

/-- One entry of GameState.moveHistory: a placement record or a pass record,
mirroring the two object shapes pushed by applyMove and passMove. -/
inductive MoveRecord where
  | play (color : Color) (x y : Int) (moveNumber : Nat) (captures : Nat)
  | pass (color : Color) (moveNumber : Nat)
deriving DecidableEq, Repr

/-- Model of the per-game state object built by GoEngine.createGameState.
The hasher object is represented by its table; previousHashes stores the
numeric hashes (see the header comment on the injective hex encoding);
status is absent (none) until passMove sets it to finished. -/
structure GameState where
  gameId : String
  boardSize : Nat
  komi : Rat
  board : Board
  currentPlayer : Color
  moveNumber : Nat
  moveHistory : List MoveRecord
  previousHashes : List Nat
  table : ZTable
  consecutivePasses : Nat
  capturedBlack : Nat
  capturedWhite : Nat
  lastKoHash : Option Nat
  status : Option String

/-- The engine's gameStates map, as an association list. -/
abbrev Engine := List (String × GameState)

/-- Model of this.gameStates.get(gameId), with null as none. -/
def findGame (e : Engine) (gameId : String) : Option GameState :=
  (e.find? (fun kv => kv.1 == gameId)).map (fun kv => kv.2)

/-- Model of this.gameStates.set(gameId, s): replace or append. -/
def setGame (e : Engine) (gameId : String) (s : GameState) : Engine :=
  if (e.find? (fun kv => kv.1 == gameId)).isSome then
    e.map (fun kv => if kv.1 == gameId then (gameId, s) else kv)
  else e ++ [(gameId, s)]

/-- Model of GoEngine.getGameState (returns null as none). -/
def getGameState (e : Engine) (gameId : String) : Option GameState :=
  findGame e gameId

/-- Model of GoEngine.cleanupGame (Map.delete). -/
def cleanupGame (e : Engine) (gameId : String) : Engine :=
  e.filter (fun kv => kv.1 != gameId)

/-- Default komi chosen by createGameState when none is supplied:
6.5 for 19, 6.5 for 13, 0.5 otherwise (i.e. for 9). -/
def defaultKomi (boardSize : Nat) : Rat :=
  if boardSize = 19 then 6.5 else if boardSize = 13 then 6.5 else 0.5

/-- The fresh game state object literal of GoEngine.createGameState. -/
def initialGameState (gameId : String) (boardSize : Nat) (komi : Rat) (table : ZTable) :
    GameState :=
  let board := createEmptyBoard boardSize
  { gameId := gameId
    boardSize := boardSize
    komi := komi
    board := board
    currentPlayer := .black
    moveNumber := 0
    moveHistory := []
    previousHashes := [hashBoard table boardSize board]
    table := table
    consecutivePasses := 0
    capturedBlack := 0
    capturedWhite := 0
    lastKoHash := none
    status := none }

/-- Model of GoEngine.createGameState.  The komi argument defaults to null
(none); the table stands for the randomly generated ZobristHasher.  A throw
becomes an error result paired with the untouched engine map. -/
def createGameState (e : Engine) (gameId : String) (boardSize : Nat)
    (komiArg : Option Rat) (table : ZTable) : Except String GameState × Engine :=
  if boardSize = 9 ∨ boardSize = 13 ∨ boardSize = 19 then
    let komi := komiArg.getD (defaultKomi boardSize)
    let s := initialGameState gameId boardSize komi table
    (.ok s, setGame e gameId s)
  else
    (.error ("Invalid board size: " ++ toString boardSize ++ ". Must be 9, 13, or 19."), e)

/-- Result of GoEngine.isLegalMove: ok, or not ok with a reason string. -/
inductive LegalCheck where
  | ok
  | err (reason : String)
deriving DecidableEq, Repr

/-- Model of GoEngine.isLegalMove on a looked-up state: the checks after
the game-exists check, in source order (bounds, occupancy, turn, then the
capture/suicide simulation, then the positional-superko hash lookup). -/
def isLegalMoveS (s : GameState) (x y : Int) (color : Color) : LegalCheck :=
  if x < 0 ∨ x ≥ (s.boardSize : Int) ∨ y < 0 ∨ y ≥ (s.boardSize : Int) then
    .err "invalid_coordinates"
  else
    let xn := x.toNat
    let yn := y.toNat
    if cellAt s.board yn xn ≠ none then .err "position_occupied"
    else if s.currentPlayer ≠ color then .err "not_your_turn"
    else
      let testBoard := setCell s.board yn xn (some color)
      let capturedGroups := findCapturedGroups testBoard xn yn color
      let boardAfterCapture := removeGroups testBoard capturedGroups
      let placedGroup := getGroup boardAfterCapture xn yn color
      let hasLiberties := groupHasLiberties boardAfterCapture placedGroup
      if capturedGroups = [] ∧ hasLiberties = false then .err "suicide_move"
      else
        let hash := hashBoard s.table s.boardSize boardAfterCapture
        if hash ∈ s.previousHashes then .err "ko_violation"
        else .ok

/-- Model of GoEngine.isLegalMove, including the game-exists check. -/
def isLegalMove (e : Engine) (gameId : String) (x y : Int) (color : Color) : LegalCheck :=
  match findGame e gameId with
  | none => .err "game_not_found"
  | some s => isLegalMoveS s x y color

/-- The board obtained by placing a stone and removing every captured
opponent group, exactly as both isLegalMove (on the scratch copy) and
applyMove (on the live board) compute it. -/
def simulatePlacement (board : Board) (x y : Nat) (color : Color) : Board :=
  let testBoard := setCell board y x (some color)
  removeGroups testBoard (findCapturedGroups testBoard x y color)

/-- Model of GoEngine.applyMove on a looked-up state: re-validate, then
place the stone, remove captured groups, accumulate capture counts, record
the new hash, push the history record, flip the player and reset the pass
counter.  Returns the new state, the captured positions and the new hash. -/
def applyMoveS (s : GameState) (x y : Int) (color : Color) :
    Except String (GameState × List Pos × Nat) :=
  match isLegalMoveS s x y color with
  | .err reason => .error ("Illegal move: " ++ reason)
  | .ok =>
    let xn := x.toNat
    let yn := y.toNat
    let currentHash := hashBoard s.table s.boardSize s.board
    let boardWithStone := setCell s.board yn xn (some color)
    let capturedGroups := findCapturedGroups boardWithStone xn yn color
    let allCaptures := capturedGroups.flatten
    let totalCaptured := allCaptures.length
    let newBoard := removeGroups boardWithStone capturedGroups
    let newHash := hashBoard s.table s.boardSize newBoard
    let s2 : GameState :=
      { s with
        board := newBoard
        capturedBlack := if color = .black then s.capturedBlack + totalCaptured else s.capturedBlack
        capturedWhite := if color = .white then s.capturedWhite + totalCaptured else s.capturedWhite
        previousHashes := newHash :: s.previousHashes
        lastKoHash := some currentHash
        moveNumber := s.moveNumber + 1
        moveHistory := s.moveHistory ++ [MoveRecord.play color x y (s.moveNumber + 1) totalCaptured]
        currentPlayer := color.opponent
        consecutivePasses := 0 }
    .ok (s2, allCaptures, newHash)

/-- Model of GoEngine.applyMove including the lookup; a throw leaves the
engine map untouched. -/
def applyMove (e : Engine) (gameId : String) (x y : Int) (color : Color) :
    Except String (GameState × List Pos × Nat) × Engine :=
  match findGame e gameId with
  | none => (.error ("Game " ++ gameId ++ " not found"), e)
  | some s =>
    match applyMoveS s x y color with
    | .error msg => (.error msg, e)
    | .ok r => (.ok r, setGame e gameId r.1)

/-- Model of GoEngine.passMove on a looked-up state: turn check, then
increment the pass counter and move number, push the history record, flip
the player, and mark the game finished when two consecutive passes are
reached.  Returns the new state and the ended flag. -/
def passMoveS (s : GameState) (color : Color) : Except String (GameState × Bool) :=
  if s.currentPlayer ≠ color then .error "Not your turn"
  else
    let cp := s.consecutivePasses + 1
    let ended := decide (cp ≥ 2)
    let s2 : GameState :=
      { s with
        consecutivePasses := cp
        moveNumber := s.moveNumber + 1
        moveHistory := s.moveHistory ++ [MoveRecord.pass color (s.moveNumber + 1)]
        currentPlayer := color.opponent
        status := if ended then some "finished" else s.status }
    .ok (s2, ended)

/-- Model of GoEngine.passMove including the lookup. -/
def passMove (e : Engine) (gameId : String) (color : Color) :
    Except String (GameState × Bool) × Engine :=
  match findGame e gameId with
  | none => (.error ("Game " ++ gameId ++ " not found"), e)
  | some s =>
    match passMoveS s color with
    | .error msg => (.error msg, e)
    | .ok r => (.ok r, setGame e gameId r.1)

/-! ### Scoring (GoEngine.scoreChinese and helpers) -/

/-- Model of the stone-counting loops at the top of scoreChinese. -/
def countStones (board : Board) (boardSize : Nat) (color : Color) : Nat :=
  (List.range boardSize).foldl (fun acc y =>
    (List.range boardSize).foldl (fun acc2 x =>
      if cellAt board y x = some color then acc2 + 1 else acc2) acc) 0

/-- BFS loop of GoEngine.getEmptyRegion, threading the shared visited
matrix (modelled as a list of visited positions) and returning the region
together with the updated visited set. -/
def getEmptyRegionAux (board : Board) (boardSize : Nat) :
    Nat → List Pos → List Pos → List Pos → List Pos × List Pos
  | 0, _, visited, region => (region, visited)
  | _ + 1, [], visited, region => (region, visited)
  | fuel + 1, p :: queue, visited, region =>
    if p ∈ visited then getEmptyRegionAux board boardSize fuel queue visited region
    else
      let visited2 := p :: visited
      if cellAt board p.2 p.1 = none then
        let adjs := (getAdjacentPositions p.1 p.2 boardSize).filter
          (fun a => !decide (a ∈ visited2) && decide (cellAt board a.2 a.1 = none))
        getEmptyRegionAux board boardSize fuel (queue ++ adjs) visited2 (region ++ [p])
      else getEmptyRegionAux board boardSize fuel queue visited2 region

/-- Model of GoEngine.getEmptyRegion: the connected empty region through
(startX, startY), plus the updated visited set. -/
def getEmptyRegion (board : Board) (startX startY boardSize : Nat) (visited : List Pos) :
    List Pos × List Pos :=
  if cellAt board startY startX ≠ none then ([], visited)
  else getEmptyRegionAux board boardSize (boardSize * boardSize * 4 + 1)
    [(startX, startY)] visited []

/-- True iff some cell of the region has a neighbour holding a stone of
the given color (the final content of the touching-colors set of
GoEngine.analyzeTerritory). -/
def regionTouches (board : Board) (region : List Pos) (boardSize : Nat) (color : Color) : Bool :=
  region.any (fun p => (getAdjacentPositions p.1 p.2 boardSize).any
    (fun a => decide (cellAt board a.2 a.1 = some color)))

/-- The touching-colors set accumulated by GoEngine.analyzeTerritory over
the neighbours of every region cell, as a (touches black, touches white)
pair of flags. -/
def touchingColorsOf (board : Board) (region : List Pos) (boardSize : Nat) : Bool × Bool :=
  region.foldl (fun tc p =>
    (getAdjacentPositions p.1 p.2 boardSize).foldl (fun tc2 a =>
      match cellAt board a.2 a.1 with
      | some .black => (true, tc2.2)
      | some .white => (tc2.1, true)
      | none => tc2) tc) (false, false)

/-- Model of GoEngine.analyzeTerritory: the owner when exactly one color
touches the region (set size 1), neutral (none) when both or neither
touch it. -/
def analyzeTerritory (board : Board) (region : List Pos) (boardSize : Nat) : Option Color :=
  let tc := touchingColorsOf board region boardSize
  if tc.1 && !tc.2 then some .black
  else if tc.2 && !tc.1 then some .white
  else none

/-- Row-major list of all coordinates, matching the scan order of the
territory loop in scoreChinese (y outer, x inner). -/
def allPositions (boardSize : Nat) : List Pos :=
  ((List.range boardSize).map (fun y => (List.range boardSize).map (fun x => (x, y)))).flatten

/-- One iteration of the territory loop of scoreChinese on the
accumulator (visited, black territory, white territory): flood-fill an
unvisited empty cell into a region and add its size to the owner color
determined by analyzeTerritory. -/
def territoryStep (board : Board) (boardSize : Nat) (acc : List Pos × Nat × Nat) (p : Pos) :
    List Pos × Nat × Nat :=
  if cellAt board p.2 p.1 = none ∧ p ∉ acc.1 then
    let rv := getEmptyRegion board p.1 p.2 boardSize acc.1
    match analyzeTerritory board rv.1 boardSize with
    | some .black => (rv.2, acc.2.1 + rv.1.length, acc.2.2)
    | some .white => (rv.2, acc.2.1, acc.2.2 + rv.1.length)
    | none => (rv.2, acc.2.1, acc.2.2)
  else acc

/-- The territory-accumulation loop of scoreChinese: scan all cells in row
major order, flood-fill each unvisited empty cell into a region, and add
its size to the owner color determined by analyzeTerritory.  Returns
(black territory, white territory). -/
def territoryScan (board : Board) (boardSize : Nat) : Nat × Nat :=
  ((allPositions boardSize).foldl (territoryStep board boardSize)
    (([] : List Pos), 0, 0)).2

/-- Specification-side view of one scan iteration, recording the regions
found instead of their counts (the counting loop is proved to run in
lockstep with it). -/
def regionStep (board : Board) (boardSize : Nat) (acc : List Pos × List (List Pos)) (p : Pos) :
    List Pos × List (List Pos) :=
  if cellAt board p.2 p.1 = none ∧ p ∉ acc.1 then
    let rv := getEmptyRegion board p.1 p.2 boardSize acc.1
    (rv.2, acc.2 ++ [rv.1])
  else acc

/-- The list of empty regions discovered by the territory scan, in scan
order. -/
def scanRegions (board : Board) (boardSize : Nat) : List (List Pos) :=
  ((allPositions boardSize).foldl (regionStep board boardSize)
    (([] : List Pos), ([] : List (List Pos)))).2

/-- Total cell count of the regions awarded to a color by
analyzeTerritory. -/
def territoryOf (board : Board) (boardSize : Nat) (c : Color) (rs : List (List Pos)) : Nat :=
  (rs.map (fun r => if analyzeTerritory board r boardSize = some c then r.length else 0)).sum

/-- In-bounds predicate for a coordinate on a boardSize-sized board. -/
def inB (boardSize : Nat) (p : Pos) : Prop := p.1 < boardSize ∧ p.2 < boardSize

/-- One flood-fill step: q is a neighbour of p holding an empty cell. -/
def adjStep (board : Board) (boardSize : Nat) (p q : Pos) : Prop :=
  q ∈ getAdjacentPositions p.1 p.2 boardSize ∧ cellAt board q.2 q.1 = none

/-- Connectivity through empty cells: the reflexive-transitive closure of
single flood-fill steps (4-adjacent empty cells). -/
def reachEmpty (board : Board) (boardSize : Nat) (p q : Pos) : Prop :=
  Relation.ReflTransGen (adjStep board boardSize) p q

/-- Count of in-bounds empty cells not yet visited: the decreasing fuel
measure of the flood-fill BFS. -/
def freshCount (board : Board) (boardSize : Nat) (visited : List Pos) : Nat :=
  ((allPositions boardSize).filter
    (fun p => !decide (p ∈ visited) && decide (cellAt board p.2 p.1 = none))).length

/-- Invariant of the territory scan: the visited set is exactly the union
of the regions found so far; each found region is a nonempty,
duplicate-free set of in-bounds empty cells that is exactly the empty
cell component of each of its members; and distinct regions are
disjoint. -/
def ScanInv (board : Board) (boardSize : Nat) (v : List Pos) (rs : List (List Pos)) : Prop :=
  (∀ x, x ∈ v ↔ ∃ r ∈ rs, x ∈ r) ∧
  (∀ r ∈ rs, r ≠ [] ∧ r.Nodup ∧
    (∀ p ∈ r, inB boardSize p ∧ cellAt board p.2 p.1 = none) ∧
    (∀ p ∈ r, ∀ q, q ∈ r ↔ reachEmpty board boardSize p q)) ∧
  List.Pairwise (fun r1 r2 => ∀ x ∈ r1, x ∉ r2) rs

/-- Result object of GoEngine.scoreChinese. -/
structure ScoreResult where
  black : Rat
  white : Rat
  winner : Option Color
  scoreDiff : Rat
  komi : Rat
deriving DecidableEq, Repr

/-- Model of GoEngine.scoreChinese on a looked-up state: stones plus
territory per color, komi added to white, winner decided by the sign of
the difference, scoreDiff its absolute value. -/
def scoreChineseS (s : GameState) : ScoreResult :=
  let blackStones := countStones s.board s.boardSize .black
  let whiteStones := countStones s.board s.boardSize .white
  let terr := territoryScan s.board s.boardSize
  let scoreBlack : Rat := blackStones + terr.1
  let scoreWhite : Rat := whiteStones + terr.2 + s.komi
  let diff := scoreBlack - scoreWhite
  let winner := if diff > 0 then some Color.black
    else if diff < 0 then some Color.white else none
  { black := scoreBlack
    white := scoreWhite
    winner := winner
    scoreDiff := |diff|
    komi := s.komi }

/-! ### Session coordinator (GameManager, part_015) and the engine wrapper
service (goEngine.js).  Real time, websocket transport and the persistence
collaborators are outside the model; notifications are represented in the
returned outcome values. -/

/-- The coordinator's per-game object (the literal built by
GameManager.createGame).  Timestamps are not modelled; the moves array is
kept as (color, coordinates or none for a pass) pairs. -/
structure CGame where
  id : String
  blackPlayerId : String
  whitePlayerId : String
  blackPlayerIdentityKey : String
  whitePlayerIdentityKey : String
  boardSize : Nat
  currentTurn : Color
  moves : List (Color × Option (Int × Int))
  boardState : Board
  capturedBlack : Nat
  capturedWhite : Nat
  status : String
deriving DecidableEq, Repr

/-- The coordinator's activeGames map. -/
abbrev GamesMap := List (String × CGame)

/-- Model of this.activeGames.get(gameId). -/
def findCGame (games : GamesMap) (gameId : String) : Option CGame :=
  (games.find? (fun kv => kv.1 == gameId)).map (fun kv => kv.2)

/-- Model of this.activeGames.set(gameId, g). -/
def setCGame (games : GamesMap) (gameId : String) (g : CGame) : GamesMap :=
  if (games.find? (fun kv => kv.1 == gameId)).isSome then
    games.map (fun kv => if kv.1 == gameId then (gameId, g) else kv)
  else games ++ [(gameId, g)]

/-- Model of this.activeGames.delete(gameId). -/
def eraseCGame (games : GamesMap) (gameId : String) : GamesMap :=
  games.filter (fun kv => kv.1 != gameId)

/-- Parameters of GameManager.createGame. -/
structure CreateGameParams where
  blackPlayerId : String
  whitePlayerId : String
  blackPlayerIdentityKey : String
  whitePlayerIdentityKey : String
  boardSize : Nat
deriving DecidableEq, Repr

/-- Model of GameManager.createGame.  The generated random game id is the
genId parameter, the random Zobrist table is the table parameter.  The
source performs no check on the two participant identifiers: it builds the
game object, calls goEngine.initializeGame (which throws on an invalid
board size, before the game is stored) and stores the game.  A throw
leaves both maps untouched. -/
def createGame (games : GamesMap) (e : Engine) (genId : String) (table : ZTable)
    (p : CreateGameParams) : Except String CGame × GamesMap × Engine :=
  let game : CGame :=
    { id := genId
      blackPlayerId := p.blackPlayerId
      whitePlayerId := p.whitePlayerId
      blackPlayerIdentityKey := p.blackPlayerIdentityKey
      whitePlayerIdentityKey := p.whitePlayerIdentityKey
      boardSize := p.boardSize
      currentTurn := .black
      moves := []
      boardState := createEmptyBoard p.boardSize
      capturedBlack := 0
      capturedWhite := 0
      status := "active" }
  match createGameState e genId p.boardSize none table with
  | (.error msg, _) => (.error msg, games, e)
  | (.ok _, e2) => (.ok game, setCGame games genId game, e2)

/-- Result shape returned by the wrapper service's playMove / handlePass
(goEngine.js): a valid flag with a reason on failure, and the data the
coordinator reads on success. -/
structure EngineCallResult where
  valid : Bool
  reason : String
  boardState : Board
  capturedBlack : Nat
  capturedWhite : Nat
  captures : List Pos
  ended : Bool
deriving Repr

/-- An invalid wrapper result carrying a failure reason (the value the
coordinator observes when the wrapper catches or reports a failure). -/
def invalidResult (reason : String) : EngineCallResult :=
  { valid := false
    reason := reason
    boardState := []
    capturedBlack := 0
    capturedWhite := 0
    captures := []
    ended := false }

/-- A valid wrapper result read off the engine state after the call. -/
def validResult (s : GameState) (captures : List Pos) (ended : Bool) : EngineCallResult :=
  { valid := true
    reason := ""
    boardState := s.board
    capturedBlack := s.capturedBlack
    capturedWhite := s.capturedWhite
    captures := captures
    ended := ended }

/-- Model of GoEngineService.playMove: legality check, then apply; any
thrown engine error is caught and reported as an invalid result. -/
def playMoveW (e : Engine) (gameId : String) (color : Color) (x y : Int) :
    EngineCallResult × Engine :=
  match isLegalMove e gameId x y color with
  | .err reason => (invalidResult reason, e)
  | .ok =>
    match applyMove e gameId x y color with
    | (.error msg, e2) => (invalidResult msg, e2)
    | (.ok r, e2) => (validResult r.1 r.2.1 false, e2)

/-- Model of GoEngineService.handlePass: pass, catching thrown errors. -/
def handlePassW (e : Engine) (gameId : String) (color : Color) :
    EngineCallResult × Engine :=
  match passMove e gameId color with
  | (.error msg, e2) => (invalidResult msg, e2)
  | (.ok r, e2) => (validResult r.1 [] r.2, e2)

/-- Model of GoEngineService.checkGameEnd when the last move reported
ended = true: score the game if its engine state still exists. -/
def checkGameEnd (e : Engine) (gameId : String) : Option ScoreResult :=
  (getGameState e gameId).map scoreChineseS

/-- Observable outcome of GameManager.handleMove toward the participants:
an error message to the requester only, a MOVE_REJECTED with a reason code
to the requester only, a MOVE_ACCEPTED broadcast, or a GAME_ENDED
broadcast carrying the final result. -/
inductive HMOutcome where
  | errorSent (msg : String)
  | rejected (reason : String)
  | accepted
  | gameEnded (winner : Option Color) (black white scoreDiff komi : Rat)
deriving DecidableEq, Repr

/-- Model of GameManager.handleMove: lookup, seat resolution, finished
check, coordinator-side turn check, delegate to the wrapper, then either
reject, broadcast acceptance, or run the end-of-game routine (which marks
the game finished, broadcasts the result and releases both the
coordinator and the engine state). -/
def handleMove (games : GamesMap) (e : Engine) (userId gameId : String)
    (x y : Int) (isPass : Bool) : HMOutcome × GamesMap × Engine :=
  match findCGame games gameId with
  | none => (.errorSent "Game not found", games, e)
  | some game =>
    let playerColor : Option Color :=
      if game.blackPlayerId = userId then some .black
      else if game.whitePlayerId = userId then some .white
      else none
    match playerColor with
    | none => (.errorSent "You are not a player in this game", games, e)
    | some pc =>
      if game.status = "finished" then (.rejected "game_finished", games, e)
      else if game.currentTurn ≠ pc then (.rejected "not_your_turn", games, e)
      else
        let call := if isPass then handlePassW e gameId pc else playMoveW e gameId pc x y
        let mr := call.1
        let e2 := call.2
        if mr.valid = false then (.rejected mr.reason, games, e2)
        else
          let game2 := { game with
            moves := game.moves ++ [(pc, if isPass then none else some (x, y))]
            currentTurn := match getGameState e2 gameId with
              | some es => es.currentPlayer
              | none => pc.opponent
            boardState := mr.boardState
            capturedBlack := mr.capturedBlack
            capturedWhite := mr.capturedWhite }
          let games2 := setCGame games gameId game2
          if mr.ended then
            match checkGameEnd e2 gameId with
            | some r =>
              (.gameEnded r.winner r.black r.white r.scoreDiff r.komi,
               eraseCGame games2 gameId, cleanupGame e2 gameId)
            | none => (.accepted, games2, e2)
          else (.accepted, games2, e2)

/-- Observable outcome of GameManager.handleResignation: either a server
side console log with no message to any participant, or the end-of-game
broadcast naming the winner. -/
inductive ResignOutcome where
  | silentLog
  | gameEnded (winner : Color)
deriving DecidableEq, Repr

/-- Model of GameManager.handleResignation: an unknown game id or an
unseated requester is logged to the server console and the function
returns with no notification to anyone; otherwise the opponent wins and
the end-of-game routine runs. -/
def handleResignation (games : GamesMap) (e : Engine) (userId gameId : String) :
    ResignOutcome × GamesMap × Engine :=
  match findCGame games gameId with
  | none => (.silentLog, games, e)
  | some game =>
    let playerColor : Option Color :=
      if game.blackPlayerId = userId then some .black
      else if game.whitePlayerId = userId then some .white
      else none
    match playerColor with
    | none => (.silentLog, games, e)
    | some pc =>
      (.gameEnded pc.opponent, eraseCGame games gameId, cleanupGame e gameId)

/-! ### Matchmaking queue (matchmaking.js).  Wall-clock time is the now
parameter; the participant-to-connection map is the conns predicate. -/

/-- One queue entry: identity key and enqueue timestamp in milliseconds
(socketId and preferences are not needed by any claim). -/
structure QEntry where
  identityKey : String
  joinedAt : Nat
deriving DecidableEq, Repr

/-- The nested pair-selection loop of processQueues: for each index i in
order, the first later index j with a different identity key; the outer
loop stops at the first i that admits such a j. -/
def findPair : List QEntry → Option (QEntry × QEntry)
  | [] => none
  | p :: rest =>
    match rest.find? (fun q => q.identityKey != p.identityKey) with
    | some q => some (p, q)
    | none => findPair rest

/-- Remove the first entry with the given identity key (the source does
findIndex by identityKey followed by splice). -/
def eraseByKey (queue : List QEntry) (key : String) : List QEntry :=
  queue.eraseP (fun q => q.identityKey == key)

/-- Outcome of one scan of a single board-size bucket in processQueues,
together with the bucket's queue after the scan. -/
inductive MatchScanResult where
  | noPair (queue : List QEntry)
  | socketMissing (queue : List QEntry)
  | waiting (queue : List QEntry)
  | matched (p1 p2 : QEntry) (queue : List QEntry)
deriving DecidableEq, Repr

/-- Model of the body of processQueues for one bucket: find two entries
with distinct identity keys, verify both connections, then match if the
larger of the two queue ages is at least 500 ms, removing both entries.
Entries whose connection is missing are removed without a match. -/
def processQueue (now : Nat) (conns : String → Bool) (queue : List QEntry) :
    MatchScanResult :=
  if queue.length < 2 then .noPair queue
  else
    match findPair queue with
    | none => .noPair queue
    | some (p1, p2) =>
      if p1.identityKey = p2.identityKey then .noPair queue
      else if !(conns p1.identityKey && conns p2.identityKey) then
        let q1 := if conns p1.identityKey then queue else eraseByKey queue p1.identityKey
        let q2 := if conns p2.identityKey then q1 else eraseByKey q1 p2.identityKey
        .socketMissing q2
      else
        let timeInQueue1 := now - p1.joinedAt
        let timeInQueue2 := now - p2.joinedAt
        let maxTime := max timeInQueue1 timeInQueue2
        if maxTime ≥ 500 then
          .matched p1 p2 (eraseByKey (eraseByKey queue p1.identityKey) p2.identityKey)
        else .waiting queue

/-- Model of MatchmakingService.leaveQueue restricted to one bucket: remove
the entry if present and, when the connection still exists, send the
participant a queue-left notification (second component). -/
def leaveQueue (conns : String → Bool) (identityKey : String) (queue : List QEntry) :
    List QEntry × List String :=
  if (queue.find? (fun q => q.identityKey == identityKey)).isSome then
    (eraseByKey queue identityKey,
     if conns identityKey then ["queue_left:" ++ identityKey] else [])
  else (queue, [])

/-- Model of MatchmakingService.cleanupStaleEntries for one bucket: drop
every entry whose connection is missing or whose age exceeds 60000 ms (the
source iterates indices downward and splices, which is this filter), and
send no notification to anyone (second component). -/
def cleanupStaleEntries (now : Nat) (conns : String → Bool) (queue : List QEntry) :
    List QEntry × List String :=
  (queue.filter (fun q => conns q.identityKey && decide (now - q.joinedAt ≤ 60000)), [])

/-! ### Concrete data used by witnesses and counterexamples -/

/-- A degenerate Zobrist table (every entry 0), usable wherever hashes do
not matter. -/
def ztable0 : ZTable := fun _ _ _ => 0

/-- A collision-free Zobrist table for a 9x9 board: distinct powers of two
per (coordinate, color) pair. -/
def demoTable : ZTable :=
  fun y x c => 2 ^ (2 * (y * 9 + x) + (if c = Color.black then 0 else 1))

/-- Engine state of a 9x9 game in which black and white pass immediately,
leaving the game finished. -/
def c2Engine : Engine :=
  (passMove (passMove (createGameState [] "g" 9 none demoTable).2 "g" .black).2 "g" .white).2

/-- A finished coordinator game record (used against the finished-game
checks of the coordinator). -/
def finishedGame : CGame :=
  { id := "g"
    blackPlayerId := "u"
    whitePlayerId := "v"
    blackPlayerIdentityKey := "a:u"
    whitePlayerIdentityKey := "a:v"
    boardSize := 9
    currentTurn := .black
    moves := []
    boardState := createEmptyBoard 9
    capturedBlack := 0
    capturedWhite := 0
    status := "finished" }

/-- A 9x9 position in which black playing the corner (0, 0) is suicide:
white stones on (1, 0) and (0, 1). -/
def suicideState : GameState :=
  { initialGameState "g" 9 0.5 demoTable with
    board := setCell (setCell (createEmptyBoard 9) 0 1 (some .white)) 1 0 (some .white) }

/-- Engine state after the immediate double pass of c2Engine (board still
empty, komi defaulted to 0.5). -/
def twoPassState : GameState :=
  (findGame c2Engine "g").getD (initialGameState "g" 9 0.5 demoTable)

/-- Shorthand for applying one placement in the demo game. -/
def mv (e : Engine) (x y : Int) (c : Color) : Engine := (applyMove e "g" x y c).2

/-- A 9x9 game driven into a ko shape: white's stone at (1, 1) is
captured by black's move at (2, 1); white recapturing at (1, 1) would
recreate the position after move 8 — an earlier, not immediately
preceding, position. -/
def koEngine : Engine :=
  mv (mv (mv (mv (mv (mv (mv (mv (mv ((createGameState [] "g" 9 none demoTable).2)
    1 0 .black) 1 1 .white) 0 1 .black) 2 0 .white) 1 2 .black) 3 1 .white)
    8 8 .black) 2 2 .white) 2 1 .black

/-- One action submitted to the engine: a placement or a pass. -/
inductive Act where
  | play (x y : Int) (color : Color)
  | pass (color : Color)

/-- One engine action applied to a game state, returning the new state and
the board position it produced (none when the engine throws). -/
def stepAct (s : GameState) : Act → Option (GameState × Board)
  | .play x y c =>
    match applyMoveS s x y c with
    | .ok r => some (r.1, r.1.board)
    | .error _ => none
  | .pass c =>
    match passMoveS s c with
    | .ok r => some (r.1, r.1.board)
    | .error _ => none

/-- Replay of a list of actions from a state, accumulating every board
position produced along the way (the positions previously seen in the
game, in the sense of the superko rule). -/
def runActs : GameState → List Board → List Act → Option (GameState × List Board)
  | s, bs, [] => some (s, bs)
  | s, bs, a :: acts =>
    match stepAct s a with
    | some r => runActs r.1 (bs ++ [r.2]) acts
    | none => none

/-- Invariant tying the engine's hash set to the boards seen so far: a
hash is recorded exactly when some seen board hashes to it, and the
current board is among the seen boards. -/
def HashInv (s : GameState) (bs : List Board) : Prop :=
  (∀ h, h ∈ s.previousHashes ↔ ∃ b ∈ bs, hashBoard s.table s.boardSize b = h) ∧
  s.board ∈ bs

/-! ### Theorems -/

/-- C9: createGameState called with any board size other than 9, 13 or 19
throws before creating anything, leaving the engine map untouched (so
getGameState for that id still returns none if it did before), and for the
valid sizes with no komi supplied the default komi is 6.5 for 19 and 13
and 0.5 for 9. -/
theorem createGameState_invalid_size_and_komi_defaults
    (e : Engine) (gameId : String) (komiArg : Option Rat) (t : ZTable) (boardSize : Nat)
    (h9 : boardSize ≠ 9) (h13 : boardSize ≠ 13) (h19 : boardSize ≠ 19) :
    createGameState e gameId boardSize komiArg t =
      (.error ("Invalid board size: " ++ toString boardSize ++ ". Must be 9, 13, or 19."), e) ∧
    (getGameState e gameId = none →
      getGameState (createGameState e gameId boardSize komiArg t).2 gameId = none) ∧
    (createGameState e gameId 19 none t).1 = .ok (initialGameState gameId 19 6.5 t) ∧
    (createGameState e gameId 13 none t).1 = .ok (initialGameState gameId 13 6.5 t) ∧
    (createGameState e gameId 9 none t).1 = .ok (initialGameState gameId 9 0.5 t) := by
  have hcond : ¬(boardSize = 9 ∨ boardSize = 13 ∨ boardSize = 19) := by
    rintro (h | h | h)
    · exact h9 h
    · exact h13 h
    · exact h19 h
  refine ⟨?_, ?_, rfl, rfl, rfl⟩
  · simp only [createGameState, if_neg hcond]
  · intro hnone
    simp only [createGameState, if_neg hcond]
    exact hnone

/-- Witness for the C9 theorem at board size 7. -/
theorem createGameState_invalid_size_and_komi_defaults_witness :
    (7 : Nat) ≠ 9 ∧ (7 : Nat) ≠ 13 ∧ (7 : Nat) ≠ 19 ∧
    createGameState [] "g" 7 none ztable0 =
      (.error ("Invalid board size: " ++ toString (7 : Nat) ++ ". Must be 9, 13, or 19."), []) :=
  ⟨by decide, by decide, by decide,
    (createGameState_invalid_size_and_komi_defaults [] "g" none ztable0 7
      (by decide) (by decide) (by decide)).1⟩

/-- C4: on a non-finished game, a pass by the current player increments
consecutivePasses; when the counter thereby reaches 2 the pass reports
ended = true, sets the status to finished and leaves the board unchanged,
and otherwise the current player flips and the move number increments;
and every successfully applied placement resets consecutivePasses to 0. -/
theorem passMove_two_pass_termination
    (s : GameState) (color : Color)
    (_hactive : s.status ≠ some "finished")
    (hturn : s.currentPlayer = color) :
    (∃ r, passMoveS s color = .ok r ∧
      r.1.consecutivePasses = s.consecutivePasses + 1 ∧
      (s.consecutivePasses + 1 = 2 →
        r.2 = true ∧ r.1.status = some "finished" ∧ r.1.board = s.board) ∧
      (s.consecutivePasses + 1 < 2 →
        r.2 = false ∧ r.1.currentPlayer = color.opponent ∧
          r.1.moveNumber = s.moveNumber + 1)) ∧
    (∀ (x y : Int) (c : Color) r2, applyMoveS s x y c = .ok r2 →
      r2.1.consecutivePasses = 0) := by
  constructor
  · have hcond : ¬(s.currentPlayer ≠ color) := by simp [hturn]
    simp only [passMoveS, if_neg hcond]
    refine ⟨_, rfl, rfl, ?_, ?_⟩
    · intro h2
      rw [h2]
      exact ⟨rfl, rfl, rfl⟩
    · intro hlt
      have h0 : s.consecutivePasses = 0 := by omega
      rw [h0]
      exact ⟨rfl, rfl, rfl⟩
  · intro x y c r2 h
    unfold applyMoveS at h
    cases hleg : isLegalMoveS s x y c with
    | err reason => rw [hleg] at h; exact absurd h (by simp)
    | ok =>
      rw [hleg] at h
      simp only [Except.ok.injEq] at h
      rw [← h]

/-- Witness for the C4 theorem on a fresh 9x9 game. -/
theorem passMove_two_pass_termination_witness :
    (initialGameState "g" 9 0.5 ztable0).status ≠ some "finished" ∧
    (initialGameState "g" 9 0.5 ztable0).currentPlayer = .black ∧
    (∃ r, passMoveS (initialGameState "g" 9 0.5 ztable0) .black = .ok r ∧
      r.1.consecutivePasses = (initialGameState "g" 9 0.5 ztable0).consecutivePasses + 1 ∧
      ((initialGameState "g" 9 0.5 ztable0).consecutivePasses + 1 = 2 →
        r.2 = true ∧ r.1.status = some "finished" ∧
          r.1.board = (initialGameState "g" 9 0.5 ztable0).board) ∧
      ((initialGameState "g" 9 0.5 ztable0).consecutivePasses + 1 < 2 →
        r.2 = false ∧ r.1.currentPlayer = Color.black.opponent ∧
          r.1.moveNumber = (initialGameState "g" 9 0.5 ztable0).moveNumber + 1)) :=
  ⟨by decide, rfl,
    (passMove_two_pass_termination (initialGameState "g" 9 0.5 ztable0) .black
      (by decide) rfl).1⟩

/-- C10: the periodic cleanup keeps exactly the entries whose connection
exists and whose age is at most 60000 ms, so an entry older than 60
seconds is removed even when its connection is live, and the cleanup sends
no queue-left notification to anyone. -/
theorem cleanup_drops_aged_entries_silently
    (now : Nat) (conns : String → Bool) (queue : List QEntry) (q : QEntry) :
    (q ∈ (cleanupStaleEntries now conns queue).1 ↔
      q ∈ queue ∧ conns q.identityKey = true ∧ now - q.joinedAt ≤ 60000) ∧
    (cleanupStaleEntries now conns queue).2 = [] := by
  constructor
  · simp [cleanupStaleEntries, List.mem_filter, and_assoc]
  · rfl

/-- C7 counterexample: with entry a enqueued at time 0 and entry b
enqueued at time 600, a scan at time 600 matches them although b has been
queued for 0 ms, strictly less than the 500 ms minimum dwell time. -/
theorem processQueue_matches_undwelled_entry :
    processQueue 600 (fun _ => true) [⟨"a", 0⟩, ⟨"b", 600⟩] =
      .matched ⟨"a", 0⟩ ⟨"b", 600⟩ [] ∧
    600 - 600 < 500 := by decide

/-- C7 amended: a match is produced only when the two selected entries
have distinct identity keys, both connections exist, and the larger of the
two queue ages is at least 500 ms; the entry that joined later may
therefore be matched before its own dwell time has elapsed. -/
theorem processQueue_dwell_uses_max_age
    (now : Nat) (conns : String → Bool) (queue : List QEntry) (p1 p2 : QEntry)
    (q2 : List QEntry)
    (h : processQueue now conns queue = .matched p1 p2 q2) :
    p1.identityKey ≠ p2.identityKey ∧
    conns p1.identityKey = true ∧ conns p2.identityKey = true ∧
    500 ≤ max (now - p1.joinedAt) (now - p2.joinedAt) := by
  unfold processQueue at h
  split at h
  · exact absurd h (by simp)
  · split at h
    · exact absurd h (by simp)
    · next a b heq =>
      split at h
      · exact absurd h (by simp)
      · next hne =>
        split at h
        · exact absurd h (by simp)
        · next hconn =>
          dsimp only at h
          split at h
          · next hmax =>
            simp only [MatchScanResult.matched.injEq] at h
            obtain ⟨ha, hb, -⟩ := h
            subst ha; subst hb
            refine ⟨hne, ?_⟩
            cases h1 : conns a.identityKey with
            | false => rw [h1] at hconn; exact absurd rfl hconn
            | true =>
              cases h2 : conns b.identityKey with
              | false => rw [h1, h2] at hconn; exact absurd rfl hconn
              | true => exact ⟨rfl, rfl, hmax⟩
          · exact absurd h (by simp)

/-- Witness for the C7 amended theorem at the concrete scan above. -/
theorem processQueue_dwell_uses_max_age_witness :
    processQueue 700 (fun _ => true) [⟨"a", 100⟩, ⟨"b", 700⟩] =
      .matched ⟨"a", 100⟩ ⟨"b", 700⟩ [] ∧
    ("a" : String) ≠ "b" ∧
    500 ≤ max (700 - 100) (700 - 700) :=
  ⟨by decide,
    (processQueue_dwell_uses_max_age 700 (fun _ => true) [⟨"a", 100⟩, ⟨"b", 700⟩]
      ⟨"a", 100⟩ ⟨"b", 700⟩ [] (by decide)).1,
    (processQueue_dwell_uses_max_age 700 (fun _ => true) [⟨"a", 100⟩, ⟨"b", 700⟩]
      ⟨"a", 100⟩ ⟨"b", 700⟩ [] (by decide)).2.2.2⟩

/-- Helper: the pair-selection loop of processQueues only ever returns two
entries with distinct identity keys. -/
theorem findPair_distinct_keys :
    ∀ (queue : List QEntry) (q1 q2 : QEntry),
      findPair queue = some (q1, q2) → q1.identityKey ≠ q2.identityKey := by
  intro queue
  induction queue with
  | nil => intro q1 q2 h; exact absurd h (by simp [findPair])
  | cons p rest ih =>
    intro q1 q2 h
    unfold findPair at h
    cases hf : rest.find? (fun q => q.identityKey != p.identityKey) with
    | none => rw [hf] at h; exact ih q1 q2 h
    | some q =>
      rw [hf] at h
      simp only [Option.some.injEq, Prod.mk.injEq] at h
      obtain ⟨h1, h2⟩ := h
      subst h1; subst h2
      have hprop := List.find?_some hf
      simp only [bne_iff_ne, ne_eq] at hprop
      exact fun he => hprop (he ▸ rfl)

/-- C8 counterexample: createGame invoked with identical participant
identifiers succeeds and registers a game whose two participant
identifiers are equal; no defensive distinctness check exists. -/
theorem createGame_accepts_identical_ids :
    ((createGame [] [] "gid" ztable0 ⟨"u", "u", "a:u", "g:u", 9⟩).1.toOption.map
      (fun g => (g.blackPlayerId, g.whitePlayerId))) = some ("u", "u") ∧
    ((findCGame (createGame [] [] "gid" ztable0 ⟨"u", "u", "a:u", "g:u", 9⟩).2.1 "gid").map
      (fun g => (g.blackPlayerId, g.whitePlayerId))) = some ("u", "u") := by decide

/-- C8 amended: createGame performs no distinctness check and copies the
two participant identifiers verbatim into the created game; distinctness
of the two matched participants is guaranteed only upstream, by the
matchmaking pair selection, which never selects two entries with equal
identity keys. -/
theorem createGame_relies_on_matchmaking_distinctness
    (games : GamesMap) (e : Engine) (genId : String) (t : ZTable) (p : CreateGameParams)
    (hsize : p.boardSize = 9 ∨ p.boardSize = 13 ∨ p.boardSize = 19) :
    (∃ g, (createGame games e genId t p).1 = .ok g ∧
      g.blackPlayerId = p.blackPlayerId ∧ g.whitePlayerId = p.whitePlayerId) ∧
    (∀ (queue : List QEntry) (q1 q2 : QEntry),
      findPair queue = some (q1, q2) → q1.identityKey ≠ q2.identityKey) := by
  constructor
  · simp only [createGame, createGameState, if_pos hsize]
    exact ⟨_, rfl, rfl, rfl⟩
  · exact findPair_distinct_keys

/-- Witness for the C8 amended theorem with distinct identifiers. -/
theorem createGame_relies_on_matchmaking_distinctness_witness :
    ((9 : Nat) = 9 ∨ (9 : Nat) = 13 ∨ (9 : Nat) = 19) ∧
    (∃ g, (createGame [] [] "gid" ztable0 ⟨"u", "v", "a:u", "a:v", 9⟩).1 = .ok g ∧
      g.blackPlayerId = "u" ∧ g.whitePlayerId = "v") :=
  ⟨Or.inl rfl,
    (createGame_relies_on_matchmaking_distinctness [] [] "gid" ztable0
      ⟨"u", "v", "a:u", "a:v", 9⟩ (Or.inl rfl)).1⟩

/-- C2 counterexample: after two passes the engine state is marked
finished, yet the engine's isLegalMove still reports a fresh move by the
(new) current player legal, and the engine's passMove applies a further
pass (incrementing the counter to 3) instead of rejecting it. -/
theorem engine_accepts_actions_after_two_passes :
    ((findGame c2Engine "g").map (fun s => s.status)) = some (some "finished") ∧
    isLegalMove c2Engine "g" 0 0 .black = .ok ∧
    ((passMove c2Engine "g" .black).1.toOption.map
      (fun r => (r.1.consecutivePasses, r.2))) = some (3, true) := by decide

/-- C2 amended: the engine itself checks only game existence, not status;
the rejection of actions on a Finished game is enforced by the session
coordinator, whose handleMove rejects every move or pass request from a
seated player with reason game_finished once the game's status is
finished, touching neither the games map nor the engine. -/
theorem handleMove_rejects_finished_games
    (games : GamesMap) (e : Engine) (userId gameId : String) (x y : Int) (isPass : Bool)
    (game : CGame)
    (hfind : findCGame games gameId = some game)
    (hseat : game.blackPlayerId = userId ∨ game.whitePlayerId = userId)
    (hfin : game.status = "finished") :
    handleMove games e userId gameId x y isPass = (.rejected "game_finished", games, e) := by
  rcases hseat with hb | hw
  · simp [handleMove, hfind, hb, hfin]
  · by_cases hbb : game.blackPlayerId = userId
    · simp [handleMove, hfind, hbb, hfin]
    · simp [handleMove, hfind, hbb, hw, hfin]

/-- Witness for the C2 amended theorem on a concrete finished game. -/
theorem handleMove_rejects_finished_games_witness :
    findCGame [("g", finishedGame)] "g" = some finishedGame ∧
    (finishedGame.blackPlayerId = "u" ∨ finishedGame.whitePlayerId = "u") ∧
    finishedGame.status = "finished" ∧
    handleMove [("g", finishedGame)] [] "u" "g" 0 0 false =
      (.rejected "game_finished", [("g", finishedGame)], []) :=
  ⟨by decide, Or.inl rfl, rfl,
    handleMove_rejects_finished_games [("g", finishedGame)] [] "u" "g" 0 0 false
      finishedGame (by decide) (Or.inl rfl) rfl⟩

/-- C6 counterexample: handleResignation invoked with a game id that is
not in the activeGames map only logs on the server console and returns;
no message of any kind is produced for the caller or the requesting
participant (the silentLog outcome), so the operation silently no-ops. -/
theorem handleResignation_silent_on_unknown_game :
    handleResignation [] [] "u" "missing" = (.silentLog, [], []) := rfl

/-- C6 amended: with an unknown game id, the engine's isLegalMove returns
the distinct reason game_not_found, applyMove and passMove throw a
distinct game-not-found error (leaving the engine untouched), and the
coordinator's handleMove sends the requester a game-not-found error; but
handleResignation only logs server-side and notifies nobody. -/
theorem unknown_game_reported_except_resignation
    (e : Engine) (games : GamesMap) (gameId userId : String) (x y : Int) (color : Color)
    (isPass : Bool)
    (heng : findGame e gameId = none) (hgm : findCGame games gameId = none) :
    isLegalMove e gameId x y color = .err "game_not_found" ∧
    applyMove e gameId x y color = (.error ("Game " ++ gameId ++ " not found"), e) ∧
    passMove e gameId color = (.error ("Game " ++ gameId ++ " not found"), e) ∧
    handleMove games e userId gameId x y isPass = (.errorSent "Game not found", games, e) ∧
    handleResignation games e userId gameId = (.silentLog, games, e) := by
  refine ⟨?_, ?_, ?_, ?_, ?_⟩
  · simp [isLegalMove, heng]
  · simp [applyMove, heng]
  · simp [passMove, heng]
  · simp [handleMove, hgm]
  · simp [handleResignation, hgm]

/-- Witness for the C6 amended theorem on empty maps. -/
theorem unknown_game_reported_except_resignation_witness :
    findGame [] "missing" = none ∧
    isLegalMove [] "missing" 0 0 .black = .err "game_not_found" :=
  ⟨rfl,
    (unknown_game_reported_except_resignation [] [] "missing" "u" 0 0 .black false
      rfl rfl).1⟩

/-- Helper: the neighbour scan of groupHasLiberties reports none exactly
when some scanned cell is empty, provided every already-checked cell is
known non-empty; and the checked set it returns again contains only
non-empty cells. -/
theorem checkedAdjScan_spec (board : Board) :
    ∀ (l checked : List Pos),
      (∀ c ∈ checked, cellAt board c.2 c.1 ≠ none) →
      ((checkedAdjScan board l checked = none ↔
        ∃ a ∈ l, cellAt board a.2 a.1 = none) ∧
       (∀ checked2, checkedAdjScan board l checked = some checked2 →
         ∀ c ∈ checked2, cellAt board c.2 c.1 ≠ none)) := by
  intro l
  induction l with
  | nil =>
    intro checked hinv
    constructor
    · simp [checkedAdjScan]
    · intro checked2 h
      simp only [checkedAdjScan, Option.some.injEq] at h
      rw [← h]
      exact hinv
  | cons a rest ih =>
    intro checked hinv
    simp only [checkedAdjScan]
    by_cases hac : a ∈ checked
    · rw [if_pos hac]
      obtain ⟨ih1, ih2⟩ := ih checked hinv
      refine ⟨?_, ih2⟩
      rw [ih1]
      constructor
      · rintro ⟨b, hb, hbe⟩
        exact ⟨b, List.mem_cons_of_mem a hb, hbe⟩
      · rintro ⟨b, hb, hbe⟩
        rcases List.mem_cons.1 hb with rfl | hb2
        · exact absurd hbe (hinv b hac)
        · exact ⟨b, hb2, hbe⟩
    · rw [if_neg hac]
      by_cases hae : cellAt board a.2 a.1 = none
      · rw [if_pos hae]
        constructor
        · exact iff_of_true rfl ⟨a, List.mem_cons_self a rest, hae⟩
        · intro checked2 h
          cases h
      · rw [if_neg hae]
        have hinv2 : ∀ c ∈ a :: checked, cellAt board c.2 c.1 ≠ none := by
          intro c hc
          rcases List.mem_cons.1 hc with rfl | hc2
          · exact hae
          · exact hinv c hc2
        obtain ⟨ih1, ih2⟩ := ih (a :: checked) hinv2
        refine ⟨?_, ih2⟩
        rw [ih1]
        constructor
        · rintro ⟨b, hb, hbe⟩
          exact ⟨b, List.mem_cons_of_mem a hb, hbe⟩
        · rintro ⟨b, hb, hbe⟩
          rcases List.mem_cons.1 hb with rfl | hb2
          · exact absurd hbe hae
          · exact ⟨b, hb2, hbe⟩

/-- Helper: the checked-set liberty scan returns true exactly when some
member of the group has an empty neighbour. -/
theorem groupHasLibertiesAux_spec (board : Board) (n : Nat) :
    ∀ (group checked : List Pos),
      (∀ c ∈ checked, cellAt board c.2 c.1 ≠ none) →
      (groupHasLibertiesAux board n group checked = true ↔
        ∃ p ∈ group, ∃ a ∈ getAdjacentPositions p.1 p.2 n,
          cellAt board a.2 a.1 = none) := by
  intro group
  induction group with
  | nil =>
    intro checked hinv
    simp [groupHasLibertiesAux]
  | cons p rest ih =>
    intro checked hinv
    obtain ⟨h1, h2⟩ := checkedAdjScan_spec board (getAdjacentPositions p.1 p.2 n) checked hinv
    cases hscan : checkedAdjScan board (getAdjacentPositions p.1 p.2 n) checked with
    | none =>
      have hred : groupHasLibertiesAux board n (p :: rest) checked = true := by
        simp only [groupHasLibertiesAux, hscan]
      rw [hred]
      obtain ⟨a, ha, hae⟩ := h1.1 hscan
      exact iff_of_true rfl ⟨p, List.mem_cons_self p rest, a, ha, hae⟩
    | some checked2 =>
      have hred : groupHasLibertiesAux board n (p :: rest) checked =
          groupHasLibertiesAux board n rest checked2 := by
        simp only [groupHasLibertiesAux, hscan]
      have hnone : ¬∃ a ∈ getAdjacentPositions p.1 p.2 n,
          cellAt board a.2 a.1 = none := by
        intro hex
        rw [h1.2 hex] at hscan
        cases hscan
      rw [hred, ih checked2 (h2 checked2 hscan)]
      constructor
      · rintro ⟨q, hq, ha⟩
        exact ⟨q, List.mem_cons_of_mem p hq, ha⟩
      · rintro ⟨q, hq, ha⟩
        rcases List.mem_cons.1 hq with rfl | hq2
        · exact absurd ha hnone
        · exact ⟨q, hq2, ha⟩

/-- Helper: a group has a liberty exactly when some member has an empty
neighbour. -/
theorem groupHasLiberties_iff (board : Board) (group : List Pos) :
    groupHasLiberties board group = true ↔
      ∃ p ∈ group, ∃ a ∈ getAdjacentPositions p.1 p.2 board.length,
        cellAt board a.2 a.1 = none :=
  groupHasLibertiesAux_spec board board.length group [] (by simp)

/-- Helper: the BFS loop of getGroup only ever extends the accumulated
group list. -/
theorem getGroupAux_subset (board : Board) (color : Color) (n : Nat) :
    ∀ (fuel : Nat) (queue visited group : List Pos),
      group ⊆ getGroupAux board color n fuel queue visited group := by
  intro fuel
  induction fuel with
  | zero => intro queue visited group; simp [getGroupAux]
  | succ f ih =>
    intro queue visited group
    cases queue with
    | nil => simp [getGroupAux]
    | cons p rest =>
      simp only [getGroupAux]
      split
      · exact ih rest visited group
      · split
        · exact (List.subset_append_left group [p]).trans (ih _ _ _)
        · exact ih rest _ group

/-- Helper: a cell holding the probed color belongs to its own group. -/
theorem getGroup_self_mem (board : Board) (x y : Nat) (color : Color)
    (h : cellAt board y x = some color) : (x, y) ∈ getGroup board x y color := by
  unfold getGroup
  rw [if_pos h]
  simp only [getGroupAux, List.not_mem_nil, if_neg, if_false, h, if_true]
  exact getGroupAux_subset board color board.length _ _ _ _ (by simp)

/-- Helper: the capture-search loop adds only nonempty groups (each found
group contains the opponent stone it was launched from). -/
theorem findCapturedGroupsAux_ne_nil (board : Board) (oc : Color) :
    ∀ (ps checked : List Pos) (acc : List (List Pos)),
      (∀ g ∈ acc, g ≠ []) →
      ∀ g ∈ findCapturedGroupsAux board oc ps checked acc, g ≠ [] := by
  intro ps
  induction ps with
  | nil => intro checked acc hacc; simpa [findCapturedGroupsAux] using hacc
  | cons p rest ih =>
    intro checked acc hacc
    simp only [findCapturedGroupsAux]
    split
    · next hcell =>
      split
      · exact ih _ _ hacc
      · split
        · exact ih _ _ hacc
        · apply ih
          intro g hg
          rcases List.mem_append.1 hg with hg2 | hg2
          · exact hacc g hg2
          · have hgg : g = getGroup board p.1 p.2 oc := List.mem_singleton.1 hg2
            subst hgg
            intro hnil
            have hmem := getGroup_self_mem board p.1 p.2 oc hcell
            rw [hnil] at hmem
            exact List.not_mem_nil _ hmem
    · exact ih _ _ hacc

/-- Helper: every captured group returned by findCapturedGroups is
nonempty. -/
theorem findCapturedGroups_ne_nil (board : Board) (x y : Nat) (color : Color) :
    ∀ g ∈ findCapturedGroups board x y color, g ≠ [] :=
  findCapturedGroupsAux_ne_nil board color.opponent _ _ _ (by simp)

/-- Helper: zero captured stones is the same as zero captured groups. -/
theorem captured_stones_zero_iff (board : Board) (x y : Nat) (color : Color) :
    (findCapturedGroups board x y color).flatten.length = 0 ↔
      findCapturedGroups board x y color = [] := by
  constructor
  · intro h
    have hf : (findCapturedGroups board x y color).flatten = [] :=
      List.length_eq_zero.1 h
    have hall := List.flatten_eq_nil_iff.1 hf
    cases hC : findCapturedGroups board x y color with
    | nil => rfl
    | cons g gs =>
      have hgnil : g = [] := hall g (by rw [hC]; exact List.mem_cons_self g gs)
      exact absurd hgnil
        (findCapturedGroups_ne_nil board x y color g (by rw [hC]; exact List.mem_cons_self g gs))
  · intro h; rw [h]; rfl

/-- C3: for an in-bounds placement on an empty cell by the current player,
isLegalMove reports suicide_move exactly when no opponent stone would be
captured and the placed stone's own group (computed on the post-capture
board) has no liberty, where having no liberty means exactly that no
group member has an empty neighbour; and any rejected move leaves the
engine state unchanged, applyMove on it returning an engine error with
the untouched state map. -/
theorem suicide_iff_no_capture_no_liberty
    (s : GameState) (x y : Int) (color : Color)
    (hx : 0 ≤ x) (hx2 : x < (s.boardSize : Int)) (hy : 0 ≤ y) (hy2 : y < (s.boardSize : Int))
    (hempty : cellAt s.board y.toNat x.toNat = none)
    (hturn : s.currentPlayer = color) :
    (isLegalMoveS s x y color = .err "suicide_move" ↔
      ((findCapturedGroups (setCell s.board y.toNat x.toNat (some color)) x.toNat y.toNat
          color).flatten.length = 0 ∧
        groupHasLiberties (simulatePlacement s.board x.toNat y.toNat color)
          (getGroup (simulatePlacement s.board x.toNat y.toNat color) x.toNat y.toNat color)
          = false)) ∧
    (∀ (b : Board) (g : List Pos),
      groupHasLiberties b g = false ↔
        ¬∃ p ∈ g, ∃ a ∈ getAdjacentPositions p.1 p.2 b.length,
          cellAt b a.2 a.1 = none) ∧
    (∀ (e : Engine) (gid : String) (x2 y2 : Int) (c2 : Color),
      isLegalMove e gid x2 y2 c2 ≠ .ok →
      ∃ msg, applyMove e gid x2 y2 c2 = (.error msg, e)) := by
  refine ⟨?_, ?_, ?_⟩
  case refine_2 =>
    intro b g
    rw [← groupHasLiberties_iff b g]
    cases groupHasLiberties b g <;> simp
  · have hbound : ¬(x < 0 ∨ x ≥ (s.boardSize : Int) ∨ y < 0 ∨ y ≥ (s.boardSize : Int)) := by
      push_neg
      exact ⟨hx, hx2, hy, hy2⟩
    have hocc : ¬(cellAt s.board y.toNat x.toNat ≠ none) := by simp [hempty]
    have hturn2 : ¬(s.currentPlayer ≠ color) := by simp [hturn]
    simp only [isLegalMoveS, if_neg hbound, if_neg hocc, if_neg hturn2, simulatePlacement]
    by_cases hcond :
        findCapturedGroups (setCell s.board y.toNat x.toNat (some color)) x.toNat y.toNat
            color = [] ∧
          groupHasLiberties
            (removeGroups (setCell s.board y.toNat x.toNat (some color))
              (findCapturedGroups (setCell s.board y.toNat x.toNat (some color)) x.toNat
                y.toNat color))
            (getGroup
              (removeGroups (setCell s.board y.toNat x.toNat (some color))
                (findCapturedGroups (setCell s.board y.toNat x.toNat (some color)) x.toNat
                  y.toNat color))
              x.toNat y.toNat color) = false
    · rw [if_pos hcond]
      constructor
      · intro _
        exact ⟨by rw [hcond.1]; rfl, hcond.2⟩
      · intro _
        rfl
    · rw [if_neg hcond]
      constructor
      · intro hres
        split at hres
        · exact absurd hres (by simp)
        · exact absurd hres (by simp)
      · intro hrhs
        exact absurd ⟨(captured_stones_zero_iff _ _ _ _).1 hrhs.1, hrhs.2⟩ hcond
  · intro e gid x2 y2 c2 hne
    unfold isLegalMove at hne
    cases hfind : findGame e gid with
    | none =>
      refine ⟨"Game " ++ gid ++ " not found", ?_⟩
      simp only [applyMove, hfind]
    | some s3 =>
      rw [hfind] at hne
      cases hleg : isLegalMoveS s3 x2 y2 c2 with
      | ok => exact absurd hleg hne
      | err reason =>
        refine ⟨"Illegal move: " ++ reason, ?_⟩
        simp only [applyMove, hfind, applyMoveS, hleg]

/-- Witness for the C3 theorem: the corner placement above is reported as
suicide_move. -/
theorem suicide_iff_no_capture_no_liberty_witness :
    (0 : Int) ≤ 0 ∧ (0 : Int) < (suicideState.boardSize : Int) ∧
    cellAt suicideState.board 0 0 = none ∧
    suicideState.currentPlayer = .black ∧
    isLegalMoveS suicideState 0 0 .black = .err "suicide_move" ∧
    (isLegalMoveS suicideState 0 0 .black = .err "suicide_move" ↔
      ((findCapturedGroups (setCell suicideState.board 0 0 (some .black)) 0 0
          .black).flatten.length = 0 ∧
        groupHasLiberties (simulatePlacement suicideState.board 0 0 .black)
          (getGroup (simulatePlacement suicideState.board 0 0 .black) 0 0 .black)
          = false)) :=
  ⟨le_refl 0, by decide, by decide, rfl, by decide,
    (suicide_iff_no_capture_no_liberty suicideState 0 0 .black
      (le_refl 0) (by decide) (le_refl 0) (by decide) (by decide) rfl).1⟩

/-- Helper: a successful applyMove produces the simulated post-capture
board, pushes its hash onto previousHashes, and leaves the hasher table
and the board size untouched. -/
theorem applyMoveS_ok_shape (s : GameState) (x y : Int) (color : Color)
    (r : GameState × List Pos × Nat) (h : applyMoveS s x y color = .ok r) :
    r.1.board = simulatePlacement s.board x.toNat y.toNat color ∧
    r.1.previousHashes = hashBoard s.table s.boardSize r.1.board :: s.previousHashes ∧
    r.1.table = s.table ∧ r.1.boardSize = s.boardSize := by
  unfold applyMoveS at h
  cases hleg : isLegalMoveS s x y color with
  | err reason => rw [hleg] at h; exact absurd h (by simp)
  | ok =>
    rw [hleg] at h
    simp only [Except.ok.injEq] at h
    subst h
    exact ⟨rfl, rfl, rfl, rfl⟩

/-- Helper: a successful passMove changes neither the board nor the hash
set nor the hasher table nor the board size. -/
theorem passMoveS_ok_shape (s : GameState) (color : Color)
    (r : GameState × Bool) (h : passMoveS s color = .ok r) :
    r.1.board = s.board ∧ r.1.previousHashes = s.previousHashes ∧
    r.1.table = s.table ∧ r.1.boardSize = s.boardSize := by
  unfold passMoveS at h
  split at h
  · exact absurd h (by simp)
  · simp only [Except.ok.injEq] at h
    subst h
    exact ⟨rfl, rfl, rfl, rfl⟩

/-- Helper: one successful engine action preserves the hash-set/seen-board
invariant, extending the seen boards by the produced position. -/
theorem stepAct_inv (s : GameState) (a : Act) (r : GameState × Board) (bs : List Board)
    (h : stepAct s a = some r) (hinv : HashInv s bs) :
    HashInv r.1 (bs ++ [r.2]) ∧ r.1.table = s.table ∧ r.1.boardSize = s.boardSize := by
  cases a with
  | play x y c =>
    simp only [stepAct] at h
    cases hap : applyMoveS s x y c with
    | error m => rw [hap] at h; exact absurd h (by simp)
    | ok r2 =>
      rw [hap] at h
      simp only [Option.some.injEq] at h
      subst h
      obtain ⟨-, hp, ht, hn⟩ := applyMoveS_ok_shape s x y c r2 hap
      refine ⟨⟨?_, by simp⟩, ht, hn⟩
      intro hh
      rw [hp, ht, hn, List.mem_cons]
      constructor
      · rintro (rfl | hmem)
        · exact ⟨r2.1.board, by simp, rfl⟩
        · obtain ⟨b, hbm, hbe⟩ := (hinv.1 hh).1 hmem
          exact ⟨b, by simp [hbm], hbe⟩
      · rintro ⟨b, hbm, hbe⟩
        rcases List.mem_append.1 hbm with hbm2 | hbm2
        · exact Or.inr ((hinv.1 hh).2 ⟨b, hbm2, hbe⟩)
        · left
          have hb2 : b = r2.1.board := by simpa using hbm2
          rw [← hbe, hb2]
  | pass c =>
    simp only [stepAct] at h
    cases hap : passMoveS s c with
    | error m => rw [hap] at h; exact absurd h (by simp)
    | ok r2 =>
      rw [hap] at h
      simp only [Option.some.injEq] at h
      subst h
      obtain ⟨hb, hp, ht, hn⟩ := passMoveS_ok_shape s c r2 hap
      refine ⟨⟨?_, by simp⟩, ht, hn⟩
      intro hh
      rw [hp, ht, hn]
      constructor
      · intro hmem
        obtain ⟨b, hbm, hbe⟩ := (hinv.1 hh).1 hmem
        exact ⟨b, by simp [hbm], hbe⟩
      · rintro ⟨b, hbm, hbe⟩
        rcases List.mem_append.1 hbm with hbm2 | hbm2
        · exact (hinv.1 hh).2 ⟨b, hbm2, hbe⟩
        · have hb2 : b = r2.1.board := by simpa using hbm2
          subst hb2
          rw [hb] at hbe
          exact (hinv.1 hh).2 ⟨s.board, hinv.2, hbe⟩

/-- Helper: replaying any action list preserves the invariant. -/
theorem runActs_inv :
    ∀ (acts : List Act) (s : GameState) (bs : List Board) (s2 : GameState) (bs2 : List Board),
      runActs s bs acts = some (s2, bs2) → HashInv s bs →
      HashInv s2 bs2 ∧ s2.table = s.table ∧ s2.boardSize = s.boardSize := by
  intro acts
  induction acts with
  | nil =>
    intro s bs s2 bs2 hrun hinv
    simp only [runActs, Option.some.injEq, Prod.mk.injEq] at hrun
    obtain ⟨h1, h2⟩ := hrun
    subst h1; subst h2
    exact ⟨hinv, rfl, rfl⟩
  | cons a rest ih =>
    intro s bs s2 bs2 hrun hinv
    unfold runActs at hrun
    cases hstep : stepAct s a with
    | none => rw [hstep] at hrun; exact absurd hrun (by simp)
    | some r =>
      rw [hstep] at hrun
      obtain ⟨hinv2, ht, hn⟩ := stepAct_inv s a r bs hstep hinv
      obtain ⟨hinv3, ht2, hn2⟩ := ih r.1 (bs ++ [r.2]) s2 bs2 hrun hinv2
      exact ⟨hinv3, ht2.trans ht, hn2.trans hn⟩

/-- Helper: a fresh game state satisfies the invariant with exactly its
empty starting board seen. -/
theorem initial_HashInv (gameId : String) (n : Nat) (komi : Rat) (t : ZTable) :
    HashInv (initialGameState gameId n komi t) [(initialGameState gameId n komi t).board] := by
  refine ⟨?_, by simp⟩
  intro hh
  constructor
  · intro hmem
    have he : hh = hashBoard t n (createEmptyBoard n) := by simpa [initialGameState] using hmem
    exact ⟨(initialGameState gameId n komi t).board, by simp, he.symm⟩
  · rintro ⟨b, hbm, hbe⟩
    have hb2 : b = (initialGameState gameId n komi t).board := by simpa using hbm
    subst hb2
    simp only [initialGameState] at hbe ⊢
    simp [← hbe]

/-- Helper: once the bounds, occupancy, turn and suicide checks pass,
isLegalMove reduces to the positional-superko hash lookup on the
simulated post-capture board. -/
theorem isLegalMoveS_reaches_ko_check
    (s : GameState) (x y : Int) (color : Color)
    (hx : 0 ≤ x) (hx2 : x < (s.boardSize : Int)) (hy : 0 ≤ y) (hy2 : y < (s.boardSize : Int))
    (hempty : cellAt s.board y.toNat x.toNat = none)
    (hturn : s.currentPlayer = color)
    (hnosuic : ¬(findCapturedGroups (setCell s.board y.toNat x.toNat (some color)) x.toNat
          y.toNat color = [] ∧
        groupHasLiberties (simulatePlacement s.board x.toNat y.toNat color)
          (getGroup (simulatePlacement s.board x.toNat y.toNat color) x.toNat y.toNat color)
          = false)) :
    isLegalMoveS s x y color =
      if hashBoard s.table s.boardSize (simulatePlacement s.board x.toNat y.toNat color)
          ∈ s.previousHashes
      then .err "ko_violation" else .ok := by
  have hbound : ¬(x < 0 ∨ x ≥ (s.boardSize : Int) ∨ y < 0 ∨ y ≥ (s.boardSize : Int)) := by
    push_neg
    exact ⟨hx, hx2, hy, hy2⟩
  have hocc : ¬(cellAt s.board y.toNat x.toNat ≠ none) := by simp [hempty]
  have hturn2 : ¬(s.currentPlayer ≠ color) := by simp [hturn]
  simp only [simulatePlacement] at hnosuic ⊢
  simp only [isLegalMoveS, if_neg hbound, if_neg hocc, if_neg hturn2]
  rw [if_neg hnosuic]

/-- C1: in every game reachable by replaying actions from a fresh state,
for a placement that passes the bounds, occupancy, turn and suicide
checks, and provided the Zobrist table assigns no two relevant distinct
boards the same hash, the ko check fails with ko_violation exactly when
the post-capture board equals some previously seen position (the initial
empty board or the position after any earlier applied action), and the
move is reported legal exactly otherwise.  Cycles of any length that
recreate an earlier position are thereby rejected (positional superko). -/
theorem ko_violation_iff_seen_position
    (gid : String) (n : Nat) (komi : Rat) (t : ZTable) (acts : List Act)
    (s : GameState) (bs : List Board) (x y : Int) (color : Color)
    (hrun : runActs (initialGameState gid n komi t)
        [(initialGameState gid n komi t).board] acts = some (s, bs))
    (hx : 0 ≤ x) (hx2 : x < (s.boardSize : Int)) (hy : 0 ≤ y) (hy2 : y < (s.boardSize : Int))
    (hempty : cellAt s.board y.toNat x.toNat = none)
    (hturn : s.currentPlayer = color)
    (hnosuic : ¬(findCapturedGroups (setCell s.board y.toNat x.toNat (some color)) x.toNat
          y.toNat color = [] ∧
        groupHasLiberties (simulatePlacement s.board x.toNat y.toNat color)
          (getGroup (simulatePlacement s.board x.toNat y.toNat color) x.toNat y.toNat color)
          = false))
    (hnc : ∀ b ∈ bs, hashBoard t n b =
        hashBoard t n (simulatePlacement s.board x.toNat y.toNat color) →
        b = simulatePlacement s.board x.toNat y.toNat color) :
    (isLegalMoveS s x y color = .err "ko_violation" ↔
      simulatePlacement s.board x.toNat y.toNat color ∈ bs) ∧
    (isLegalMoveS s x y color = .ok ↔
      simulatePlacement s.board x.toNat y.toNat color ∉ bs) := by
  obtain ⟨hinv, ht, hn⟩ :=
    runActs_inv acts _ _ s bs hrun (initial_HashInv gid n komi t)
  have ht2 : s.table = t := ht
  have hn2 : s.boardSize = n := hn
  rw [isLegalMoveS_reaches_ko_check s x y color hx hx2 hy hy2 hempty hturn hnosuic]
  have hmem : (hashBoard s.table s.boardSize (simulatePlacement s.board x.toNat y.toNat color)
      ∈ s.previousHashes) ↔ simulatePlacement s.board x.toNat y.toNat color ∈ bs := by
    rw [hinv.1]
    constructor
    · rintro ⟨b, hb, he⟩
      rw [ht2, hn2] at he
      exact (hnc b hb he) ▸ hb
    · intro hm
      exact ⟨_, hm, rfl⟩
  by_cases hko : hashBoard s.table s.boardSize
      (simulatePlacement s.board x.toNat y.toNat color) ∈ s.previousHashes
  · rw [if_pos hko]
    refine ⟨⟨fun _ => hmem.1 hko, fun _ => rfl⟩, ?_, ?_⟩
    · intro habs
      exact absurd habs (by simp)
    · intro hnm
      exact absurd (hmem.1 hko) hnm
  · rw [if_neg hko]
    refine ⟨⟨?_, ?_⟩, fun _ hm => hko (hmem.2 hm), fun _ => rfl⟩
    · intro habs
      exact absurd habs (by simp)
    · intro hm
      exact absurd (hmem.2 hm) hko

/-- Witness for the C1 theorem: the empty trace on a fresh 9x9 game with
a collision-free table, probing the corner placement. -/
theorem ko_violation_iff_seen_position_witness :
    runActs (initialGameState "g" 9 0.5 demoTable)
      [(initialGameState "g" 9 0.5 demoTable).board] [] =
      some (initialGameState "g" 9 0.5 demoTable,
        [(initialGameState "g" 9 0.5 demoTable).board]) ∧
    (isLegalMoveS (initialGameState "g" 9 0.5 demoTable) 0 0 .black = .ok ↔
      simulatePlacement (initialGameState "g" 9 0.5 demoTable).board 0 0 .black ∉
        [(initialGameState "g" 9 0.5 demoTable).board]) :=
  ⟨rfl,
    (ko_violation_iff_seen_position "g" 9 0.5 demoTable [] _ _ 0 0 .black rfl
      (by decide) (by decide) (by decide) (by decide) (by decide) rfl
      (by decide) (by decide)).2⟩

/-- Concrete positional-superko demonstration: in the koEngine game all
nine placements were applied (moveNumber 9), and white's recapture at
(1, 1) — which would recreate the position after move 8, an earlier but
not immediately preceding position reached through a capture cycle — is
rejected with ko_violation. -/
theorem superko_cycle_rejected :
    ((findGame koEngine "g").map (fun s => s.moveNumber)) = some 9 ∧
    isLegalMove koEngine "g" 1 1 .white = .err "ko_violation" := by
  set_option maxRecDepth 1000000 in decide

/-- Helper: arithmetic characterization of neighbourhood membership. -/
theorem mem_adj_char (x y n : Nat) (q : Pos) :
    q ∈ getAdjacentPositions x y n ↔
      ((0 < x ∧ q = (x - 1, y)) ∨ (x < n - 1 ∧ q = (x + 1, y)) ∨
       (0 < y ∧ q = (x, y - 1)) ∨ (y < n - 1 ∧ q = (x, y + 1))) := by
  rcases q with ⟨qx, qy⟩
  simp only [getAdjacentPositions, List.mem_append]
  split_ifs with h1 h2 h3 h4 <;> simp_all [Prod.mk.injEq] <;> omega

/-- Helper: neighbours of an in-bounds cell are in bounds. -/
theorem adj_inB (x y n : Nat) (q : Pos) (hx : x < n) (hy : y < n)
    (hq : q ∈ getAdjacentPositions x y n) : inB n q := by
  rw [mem_adj_char] at hq
  rcases hq with ⟨h, rfl⟩ | ⟨h, rfl⟩ | ⟨h, rfl⟩ | ⟨h, rfl⟩ <;>
    exact ⟨by omega, by omega⟩

/-- Helper: fully arithmetic form of neighbourhood membership for an
in-bounds center. -/
theorem mem_adj_arith (x y n qx qy : Nat) (hx : x < n) (hy : y < n) :
    (qx, qy) ∈ getAdjacentPositions x y n ↔
      (qx < n ∧ qy < n ∧
        ((qx = x ∧ (qy + 1 = y ∨ qy = y + 1)) ∨ (qy = y ∧ (qx + 1 = x ∨ qx = x + 1)))) := by
  rw [mem_adj_char]
  simp only [Prod.mk.injEq]
  omega

/-- Helper: 4-adjacency is symmetric on in-bounds cells. -/
theorem adj_mem_symm (n : Nat) (p q : Pos) (hp : inB n p)
    (hq : q ∈ getAdjacentPositions p.1 p.2 n) :
    p ∈ getAdjacentPositions q.1 q.2 n := by
  rcases p with ⟨px, py⟩
  rcases q with ⟨qx, qy⟩
  obtain ⟨hp1, hp2⟩ := hp
  rw [mem_adj_arith px py n qx qy hp1 hp2] at hq
  rw [mem_adj_arith qx qy n px py hq.1 hq.2.1]
  omega

/-- Helper: a cell has at most four neighbours. -/
theorem length_adj_le (x y n : Nat) : (getAdjacentPositions x y n).length ≤ 4 := by
  simp only [getAdjacentPositions]
  split_ifs <;> simp

/-- Helper: allPositions lists exactly the in-bounds coordinates. -/
theorem mem_allPositions (n : Nat) (p : Pos) : p ∈ allPositions n ↔ inB n p := by
  rcases p with ⟨px, py⟩
  simp only [allPositions, List.mem_flatten, List.mem_map, List.mem_range, inB]
  constructor
  · rintro ⟨l, ⟨y, hy, rfl⟩, hm⟩
    rcases List.mem_map.1 hm with ⟨x, hx, he⟩
    rcases he with ⟨⟩
    exact ⟨List.mem_range.1 hx, hy⟩
  · rintro ⟨hx, hy⟩
    exact ⟨(List.range n).map (fun x => (x, py)), ⟨py, hy, rfl⟩,
      List.mem_map.2 ⟨px, List.mem_range.2 hx, rfl⟩⟩

/-- Helper: allPositions has no duplicates. -/
theorem nodup_allPositions (n : Nat) : (allPositions n).Nodup := by
  rw [allPositions, List.nodup_flatten]
  constructor
  · rintro l hl
    rcases List.mem_map.1 hl with ⟨y, -, rfl⟩
    refine List.Nodup.map ?_ (List.nodup_range n)
    intro a b hab
    simpa using congrArg Prod.fst hab
  · rw [List.pairwise_map]
    refine List.Pairwise.imp ?_ (List.nodup_range n)
    intro y1 y2 hne
    intro q hq1 hq2
    rcases List.mem_map.1 hq1 with ⟨x1, -, rfl⟩
    rcases List.mem_map.1 hq2 with ⟨x2, -, he⟩
    have hy : y2 = y1 := by simpa using congrArg Prod.snd he
    exact hne hy.symm

/-- Helper: allPositions has n * n entries. -/
theorem length_allPositions (n : Nat) : (allPositions n).length = n * n := by
  rw [allPositions, List.length_flatten, List.map_map]
  have hmc : ((List.range n).map (List.length ∘ fun y => (List.range n).map (fun x => (x, y))))
      = (List.range n).map (fun _ => n) := by
    apply List.map_congr_left
    intro y _
    simp
  rw [hmc]
  simp

/-- Helper: the fresh-cell count is at most the number of cells. -/
theorem freshCount_le (board : Board) (n : Nat) (visited : List Pos) :
    freshCount board n visited ≤ n * n := by
  rw [freshCount, ← length_allPositions n]
  exact List.length_filter_le _ _

/-- Helper: marking a cell visited removes exactly that cell from the
fresh count over any duplicate-free list containing it. -/
theorem countP_fresh_cons (board : Board) (visited : List Pos) (p : Pos)
    (hempty : cellAt board p.2 p.1 = none) (hnv : p ∉ visited) :
    ∀ l : List Pos, l.Nodup → p ∈ l →
      List.countP (fun a => !decide (a ∈ p :: visited) &&
        decide (cellAt board a.2 a.1 = none)) l + 1 =
      List.countP (fun a => !decide (a ∈ visited) &&
        decide (cellAt board a.2 a.1 = none)) l := by
  intro l
  induction l with
  | nil => intro _ h; cases h
  | cons a t ih =>
    intro hnd hmem
    rw [List.countP_cons, List.countP_cons]
    by_cases hap : a = p
    · subst hap
      have hnt : a ∉ t := (List.nodup_cons.1 hnd).1
      have hcongr : List.countP (fun b => !decide (b ∈ a :: visited) &&
          decide (cellAt board b.2 b.1 = none)) t =
          List.countP (fun b => !decide (b ∈ visited) &&
          decide (cellAt board b.2 b.1 = none)) t := by
        apply List.countP_congr
        intro b hb
        have hba : b ≠ a := fun he => hnt (he ▸ hb)
        simp [List.mem_cons, hba]
      rw [hcongr]
      simp [hnv, hempty]
    · have hmt : p ∈ t := by
        rcases List.mem_cons.1 hmem with he | ht
        · exact absurd he.symm hap
        · exact ht
      have hrec := ih (List.nodup_cons.1 hnd).2 hmt
      have hsame : (!decide (a ∈ p :: visited) && decide (cellAt board a.2 a.1 = none)) =
          (!decide (a ∈ visited) && decide (cellAt board a.2 a.1 = none)) := by
        simp [List.mem_cons, hap]
      rw [hsame]
      omega

/-- Helper: visiting a fresh in-bounds empty cell decreases the fresh-cell
count by exactly one. -/
theorem freshCount_cons (board : Board) (n : Nat) (visited : List Pos) (p : Pos)
    (hmem : p ∈ allPositions n) (hnv : p ∉ visited)
    (hempty : cellAt board p.2 p.1 = none) :
    freshCount board n (p :: visited) + 1 = freshCount board n visited := by
  simp only [freshCount, ← List.countP_eq_length_filter]
  exact countP_fresh_cons board visited p hempty hnv (allPositions n)
    (nodup_allPositions n) hmem

/-- Helper: full characterization of the flood-fill BFS loop.  Given
enough fuel (the queue length plus four times the fresh-cell count) and a
queue of in-bounds empty cells, the loop extends the accumulated region
by a duplicate-free list of fresh in-bounds empty cells; the final
visited set is the old one plus the new cells; every empty neighbour of a
new cell is visited at the end; every queue element ends up visited; and
every new cell is reachable from some queue element through empty
cells. -/
theorem getEmptyRegionAux_spec (board : Board) (n : Nat) :
    ∀ (fuel : Nat) (queue visited region : List Pos),
      queue.length + 4 * freshCount board n visited ≤ fuel →
      (∀ q ∈ queue, inB n q ∧ cellAt board q.2 q.1 = none) →
      ∃ new,
        (getEmptyRegionAux board n fuel queue visited region).1 = region ++ new ∧
        (∀ p, p ∈ (getEmptyRegionAux board n fuel queue visited region).2 ↔
          (p ∈ visited ∨ p ∈ new)) ∧
        (∀ p ∈ new, p ∉ visited ∧ inB n p ∧ cellAt board p.2 p.1 = none) ∧
        new.Nodup ∧
        (∀ p ∈ new, ∀ a ∈ getAdjacentPositions p.1 p.2 n,
          cellAt board a.2 a.1 = none →
          a ∈ (getEmptyRegionAux board n fuel queue visited region).2) ∧
        (∀ q ∈ queue, q ∈ (getEmptyRegionAux board n fuel queue visited region).2) ∧
        (∀ p ∈ new, ∃ q ∈ queue, reachEmpty board n q p) := by
  intro fuel
  induction fuel with
  | zero =>
    intro queue visited region hfuel hq
    have hq0 : queue = [] := by
      cases queue with
      | nil => rfl
      | cons a t =>
        exfalso
        simp only [List.length_cons] at hfuel
        omega
    subst hq0
    refine ⟨[], by simp [getEmptyRegionAux], ?_, by simp, by simp, by simp, by simp, by simp⟩
    intro p
    simp [getEmptyRegionAux]
  | succ f ih =>
    intro queue visited region hfuel hq
    cases queue with
    | nil =>
      refine ⟨[], by simp [getEmptyRegionAux], ?_, by simp, by simp, by simp, by simp, by simp⟩
      intro p
      simp [getEmptyRegionAux]
    | cons p rest =>
      obtain ⟨hpB, hpE⟩ := hq p (List.mem_cons_self p rest)
      by_cases hv : p ∈ visited
      · have hfuel2 : rest.length + 4 * freshCount board n visited ≤ f := by
          simp only [List.length_cons] at hfuel
          omega
        obtain ⟨new, h1, h2, h3, h4, h5, h6, h7⟩ :=
          ih rest visited region hfuel2 (fun q hqm => hq q (List.mem_cons_of_mem p hqm))
        have heq : getEmptyRegionAux board n (f + 1) (p :: rest) visited region =
            getEmptyRegionAux board n f rest visited region := by
          simp only [getEmptyRegionAux, if_pos hv]
        rw [heq]
        refine ⟨new, h1, h2, h3, h4, h5, ?_, ?_⟩
        · intro q hqm
          rcases List.mem_cons.1 hqm with rfl | hqm2
          · exact (h2 q).2 (Or.inl hv)
          · exact h6 q hqm2
        · intro pp hpp
          obtain ⟨q, hqm, hreach⟩ := h7 pp hpp
          exact ⟨q, List.mem_cons_of_mem p hqm, hreach⟩
      · have heq : getEmptyRegionAux board n (f + 1) (p :: rest) visited region =
            getEmptyRegionAux board n f
              (rest ++ (getAdjacentPositions p.1 p.2 n).filter
                (fun a => !decide (a ∈ p :: visited) && decide (cellAt board a.2 a.1 = none)))
              (p :: visited) (region ++ [p]) := by
          simp only [getEmptyRegionAux, if_neg hv]
          rw [if_pos hpE]
        have hlen : ((getAdjacentPositions p.1 p.2 n).filter
            (fun a => !decide (a ∈ p :: visited) &&
              decide (cellAt board a.2 a.1 = none))).length ≤ 4 :=
          le_trans (List.length_filter_le _ _) (length_adj_le p.1 p.2 n)
        have hfc := freshCount_cons board n visited p ((mem_allPositions n p).2 hpB) hv hpE
        have hfuel3 : (rest ++ (getAdjacentPositions p.1 p.2 n).filter
            (fun a => !decide (a ∈ p :: visited) &&
              decide (cellAt board a.2 a.1 = none))).length +
            4 * freshCount board n (p :: visited) ≤ f := by
          simp only [List.length_append, List.length_cons] at hfuel ⊢
          omega
        have hq3 : ∀ q ∈ rest ++ (getAdjacentPositions p.1 p.2 n).filter
            (fun a => !decide (a ∈ p :: visited) &&
              decide (cellAt board a.2 a.1 = none)),
            inB n q ∧ cellAt board q.2 q.1 = none := by
          intro q hqm
          rcases List.mem_append.1 hqm with hqr | hqa
          · exact hq q (List.mem_cons_of_mem p hqr)
          · obtain ⟨hmemAdj, hpred⟩ := List.mem_filter.1 hqa
            simp only [Bool.and_eq_true, Bool.not_eq_true', decide_eq_false_iff_not,
              decide_eq_true_eq] at hpred
            exact ⟨adj_inB p.1 p.2 n q hpB.1 hpB.2 hmemAdj, hpred.2⟩
        obtain ⟨new2, h1, h2, h3, h4, h5, h6, h7⟩ :=
          ih _ (p :: visited) (region ++ [p]) hfuel3 hq3
        rw [heq]
        refine ⟨p :: new2, ?_, ?_, ?_, ?_, ?_, ?_, ?_⟩
        · rw [h1, List.append_assoc]
          rfl
        · intro q
          rw [h2 q]
          simp only [List.mem_cons]
          tauto
        · intro q hqm
          rcases List.mem_cons.1 hqm with rfl | hqm2
          · exact ⟨hv, hpB, hpE⟩
          · obtain ⟨hnv2, hbb, hee⟩ := h3 q hqm2
            exact ⟨fun hc => hnv2 (List.mem_cons_of_mem p hc), hbb, hee⟩
        · rw [List.nodup_cons]
          refine ⟨?_, h4⟩
          intro hc
          exact (h3 p hc).1 (List.mem_cons_self p visited)
        · intro q hqm a haMem haE
          rcases List.mem_cons.1 hqm with rfl | hqm2
          · by_cases hav : a ∈ q :: visited
            · exact (h2 a).2 (Or.inl hav)
            · have hain : a ∈ (getAdjacentPositions q.1 q.2 n).filter
                  (fun a => !decide (a ∈ q :: visited) &&
                    decide (cellAt board a.2 a.1 = none)) := by
                refine List.mem_filter.2 ⟨haMem, ?_⟩
                simp only [Bool.and_eq_true, Bool.not_eq_true', decide_eq_false_iff_not,
                  decide_eq_true_eq]
                exact ⟨hav, haE⟩
              exact h6 a (List.mem_append_right _ hain)
          · exact h5 q hqm2 a haMem haE
        · intro q hqm
          rcases List.mem_cons.1 hqm with rfl | hqm2
          · exact (h2 q).2 (Or.inl (List.mem_cons_self q visited))
          · exact h6 q (List.mem_append_left _ hqm2)
        · intro q hqm
          rcases List.mem_cons.1 hqm with rfl | hqm2
          · exact ⟨q, List.mem_cons_self q rest, Relation.ReflTransGen.refl⟩
          · obtain ⟨sd, hsd, hreach⟩ := h7 q hqm2
            rcases List.mem_append.1 hsd with hsr | hsa
            · exact ⟨sd, List.mem_cons_of_mem p hsr, hreach⟩
            · obtain ⟨hmemAdj, hpred⟩ := List.mem_filter.1 hsa
              simp only [Bool.and_eq_true, Bool.not_eq_true', decide_eq_false_iff_not,
                decide_eq_true_eq] at hpred
              refine ⟨p, List.mem_cons_self p rest,
                Relation.ReflTransGen.head ⟨hmemAdj, hpred.2⟩ hreach⟩

/-- Helper: specification of getEmptyRegion on an in-bounds, unvisited,
empty start cell: the returned region is duplicate-free, consists of
fresh in-bounds empty cells including the start, all reachable from the
start through empty cells; the final visited set is the old one plus the
region; and every empty neighbour of a region cell is in the final
visited set. -/
theorem getEmptyRegion_spec (board : Board) (n : Nat) (sx sy : Nat) (visited : List Pos)
    (hsx : sx < n) (hsy : sy < n)
    (hempty : cellAt board sy sx = none)
    (hnv : (sx, sy) ∉ visited) :
    (∀ p, p ∈ (getEmptyRegion board sx sy n visited).2 ↔
      (p ∈ visited ∨ p ∈ (getEmptyRegion board sx sy n visited).1)) ∧
    (∀ p ∈ (getEmptyRegion board sx sy n visited).1,
      p ∉ visited ∧ inB n p ∧ cellAt board p.2 p.1 = none) ∧
    (getEmptyRegion board sx sy n visited).1.Nodup ∧
    (sx, sy) ∈ (getEmptyRegion board sx sy n visited).1 ∧
    (∀ p ∈ (getEmptyRegion board sx sy n visited).1, reachEmpty board n (sx, sy) p) ∧
    (∀ p ∈ (getEmptyRegion board sx sy n visited).1,
      ∀ a ∈ getAdjacentPositions p.1 p.2 n, cellAt board a.2 a.1 = none →
        a ∈ (getEmptyRegion board sx sy n visited).2) := by
  have hne : ¬(cellAt board sy sx ≠ none) := by simp [hempty]
  have hfuel : ([((sx, sy) : Pos)]).length + 4 * freshCount board n visited ≤
      n * n * 4 + 1 := by
    have := freshCount_le board n visited
    simp only [List.length_singleton]
    omega
  have hq : ∀ q ∈ ([((sx, sy) : Pos)]), inB n q ∧ cellAt board q.2 q.1 = none := by
    intro q hqm
    have hq2 : q = (sx, sy) := List.mem_singleton.1 hqm
    subst hq2
    exact ⟨⟨hsx, hsy⟩, hempty⟩
  obtain ⟨new, h1, h2, h3, h4, h5, h6, h7⟩ :=
    getEmptyRegionAux_spec board n (n * n * 4 + 1) [(sx, sy)] visited [] hfuel hq
  have hr : getEmptyRegion board sx sy n visited =
      getEmptyRegionAux board n (n * n * 4 + 1) [(sx, sy)] visited [] := by
    simp only [getEmptyRegion, if_neg hne]
  rw [List.nil_append] at h1
  rw [hr, h1]
  have hstart : (sx, sy) ∈ new := by
    have hm := h6 (sx, sy) (List.mem_singleton_self _)
    rcases (h2 _).1 hm with hvv | hnn
    · exact absurd hvv hnv
    · exact hnn
  refine ⟨?_, h3, h4, hstart, ?_, ?_⟩
  · intro p
    exact h2 p
  · intro p hp
    obtain ⟨q, hqm, hreach⟩ := h7 p hp
    have hq2 : q = (sx, sy) := List.mem_singleton.1 hqm
    exact hq2 ▸ hreach
  · intro p hp a haM haE
    exact h5 p hp a haM haE

/-- Helper: along an empty-cell path from an in-bounds cell, every node
other than possibly the start is in bounds and empty. -/
theorem reachEmpty_props (board : Board) (n : Nat) (p q : Pos) (hp : inB n p)
    (h : reachEmpty board n p q) :
    q = p ∨ (inB n q ∧ cellAt board q.2 q.1 = none) := by
  induction h with
  | refl => exact Or.inl rfl
  | @tail b c hab hbc ih =>
    right
    rcases ih with heq | ⟨hbB, -⟩
    · rw [heq] at hbc
      exact ⟨adj_inB p.1 p.2 n c hp.1 hp.2 hbc.1, hbc.2⟩
    · exact ⟨adj_inB b.1 b.2 n c hbB.1 hbB.2 hbc.1, hbc.2⟩

/-- Helper: empty-cell connectivity is symmetric when the start cell is
in bounds and empty. -/
theorem reachEmpty_symm (board : Board) (n : Nat) (p q : Pos)
    (hp : inB n p) (hpe : cellAt board p.2 p.1 = none)
    (h : reachEmpty board n p q) : reachEmpty board n q p := by
  induction h with
  | refl => exact Relation.ReflTransGen.refl
  | @tail b c hab hbc ih =>
    have hbprops := reachEmpty_props board n p b hp hab
    have hbB : inB n b := by
      rcases hbprops with heq | hh
      · rw [heq]; exact hp
      · exact hh.1
    have hbe : cellAt board b.2 b.1 = none := by
      rcases hbprops with heq | hh
      · rw [heq]; exact hpe
      · exact hh.2
    exact Relation.ReflTransGen.head ⟨adj_mem_symm n b c hbB hbc.1, hbe⟩ ih

/-- Helper: a path through empty cells starting outside an
adjacency-closed visited set never enters it. -/
theorem reach_avoids_closed (board : Board) (n : Nat) (visited : List Pos)
    (hcl : ∀ v ∈ visited, ∀ a ∈ getAdjacentPositions v.1 v.2 n,
      cellAt board a.2 a.1 = none → a ∈ visited)
    (s q : Pos) (hs : inB n s) (hse : cellAt board s.2 s.1 = none) (hsv : s ∉ visited)
    (h : reachEmpty board n s q) : q ∉ visited := by
  induction h with
  | refl => exact hsv
  | @tail b c hab hbc ih =>
    intro hcv
    have hbprops := reachEmpty_props board n s b hs hab
    have hbB : inB n b := by
      rcases hbprops with heq | hh
      · rw [heq]; exact hs
      · exact hh.1
    have hbe : cellAt board b.2 b.1 = none := by
      rcases hbprops with heq | hh
      · rw [heq]; exact hse
      · exact hh.2
    exact ih (hcl c hcv b (adj_mem_symm n b c hbB hbc.1) hbe)

/-- Helper: when the prior visited set is adjacency-closed, the flood-fill
region of a fresh empty start cell is exactly the start's connected
component of empty cells. -/
theorem getEmptyRegion_component (board : Board) (n : Nat) (sx sy : Nat) (visited : List Pos)
    (hsx : sx < n) (hsy : sy < n)
    (hempty : cellAt board sy sx = none)
    (hnv : (sx, sy) ∉ visited)
    (hcl : ∀ v ∈ visited, ∀ a ∈ getAdjacentPositions v.1 v.2 n,
      cellAt board a.2 a.1 = none → a ∈ visited) :
    ∀ q, q ∈ (getEmptyRegion board sx sy n visited).1 ↔ reachEmpty board n (sx, sy) q := by
  obtain ⟨hIff, hProps, hNodup, hStart, hReach, hClosure⟩ :=
    getEmptyRegion_spec board n sx sy visited hsx hsy hempty hnv
  intro q
  constructor
  · exact hReach q
  · intro hreach
    induction hreach with
    | refl => exact hStart
    | @tail b c hab hbc ih =>
      have hb : b ∈ (getEmptyRegion board sx sy n visited).1 := ih
      have hc2 : c ∈ (getEmptyRegion board sx sy n visited).2 :=
        hClosure b hb c hbc.1 hbc.2
      rcases (hIff c).1 hc2 with hcv | hcr
      · exfalso
        exact reach_avoids_closed board n visited hcl (sx, sy) c ⟨hsx, hsy⟩ hempty hnv
          (Relation.ReflTransGen.tail hab hbc) hcv
      · exact hcr

/-- Helper: a union of full components is closed under stepping to an
adjacent empty cell. -/
theorem ScanInv_closed (board : Board) (n : Nat) (v : List Pos) (rs : List (List Pos))
    (h : ScanInv board n v rs) :
    ∀ x ∈ v, ∀ a ∈ getAdjacentPositions x.1 x.2 n,
      cellAt board a.2 a.1 = none → a ∈ v := by
  intro x hx a haM haE
  obtain ⟨r, hr, hxr⟩ := (h.1 x).1 hx
  have hcomp := (h.2.1 r hr).2.2.2
  have hreach : reachEmpty board n x a := Relation.ReflTransGen.single ⟨haM, haE⟩
  have har : a ∈ r := (hcomp x hxr a).2 hreach
  exact (h.1 a).2 ⟨r, hr, har⟩

/-- Helper: one scan iteration preserves the invariant, only grows the
visited set, and leaves the scanned cell visited when it is empty. -/
theorem regionStep_inv (board : Board) (n : Nat) (v : List Pos) (rs : List (List Pos))
    (p : Pos) (hinv : ScanInv board n v rs) (hpB : inB n p) :
    ScanInv board n (regionStep board n (v, rs) p).1 (regionStep board n (v, rs) p).2 ∧
    (∀ x ∈ v, x ∈ (regionStep board n (v, rs) p).1) ∧
    (cellAt board p.2 p.1 = none → p ∈ (regionStep board n (v, rs) p).1) := by
  rcases p with ⟨px, py⟩
  obtain ⟨hpx, hpy⟩ := hpB
  by_cases hc : cellAt board py px = none ∧ (px, py) ∉ v
  · have hstep : regionStep board n (v, rs) (px, py) =
        ((getEmptyRegion board px py n v).2, rs ++ [(getEmptyRegion board px py n v).1]) := by
      simp only [regionStep, if_pos hc]
    rw [hstep]
    obtain ⟨hIff, hProps, hNodup, hStart, hReach, hClosure⟩ :=
      getEmptyRegion_spec board n px py v hpx hpy hc.1 hc.2
    have hcl := ScanInv_closed board n v rs hinv
    have hcomp := getEmptyRegion_component board n px py v hpx hpy hc.1 hc.2 hcl
    refine ⟨⟨?_, ?_, ?_⟩, ?_, ?_⟩
    · intro x
      rw [hIff x, hinv.1 x]
      simp only [List.mem_append, List.mem_singleton]
      constructor
      · rintro (⟨r, hr, hxr⟩ | hxr)
        · exact ⟨r, Or.inl hr, hxr⟩
        · exact ⟨_, Or.inr rfl, hxr⟩
      · rintro ⟨r, hr | rfl, hxr⟩
        · exact Or.inl ⟨r, hr, hxr⟩
        · exact Or.inr hxr
    · intro r hr
      rcases List.mem_append.1 hr with hro | hrn
      · exact hinv.2.1 r hro
      · have hr2 : r = (getEmptyRegion board px py n v).1 := List.mem_singleton.1 hrn
        subst hr2
        refine ⟨List.ne_nil_of_mem hStart, hNodup, fun q hq => (hProps q hq).2, ?_⟩
        intro q hq a
        have hqreach : reachEmpty board n (px, py) q := hReach q hq
        have hqprops := hProps q hq
        have hqsymm : reachEmpty board n q (px, py) :=
          reachEmpty_symm board n (px, py) q ⟨hpx, hpy⟩ hc.1 hqreach
        constructor
        · intro ha
          exact Relation.ReflTransGen.trans hqsymm (hReach a ha)
        · intro ha
          exact (hcomp a).2 (Relation.ReflTransGen.trans hqreach ha)
    · rw [List.pairwise_append]
      refine ⟨hinv.2.2, List.pairwise_singleton _ _, ?_⟩
      intro r1 hr1 r2 hr2 x hx1
      have hr22 : r2 = (getEmptyRegion board px py n v).1 := List.mem_singleton.1 hr2
      subst hr22
      intro hx2
      exact (hProps x hx2).1 ((hinv.1 x).2 ⟨r1, hr1, hx1⟩)
    · intro x hx
      exact (hIff x).2 (Or.inl hx)
    · intro _
      exact (hIff (px, py)).2 (Or.inr hStart)
  · have hstep : regionStep board n (v, rs) (px, py) = (v, rs) := by
      simp only [regionStep, if_neg hc]
    rw [hstep]
    refine ⟨hinv, fun x hx => hx, ?_⟩
    intro hE
    rcases not_and_or.1 hc with hcc | hcc
    · exact absurd hE hcc
    · exact not_not.1 hcc

/-- Helper: the whole scan preserves the invariant, grows the visited
set, and visits every empty scanned cell. -/
theorem scanFold_inv (board : Board) (n : Nat) :
    ∀ (ps : List Pos) (v : List Pos) (rs : List (List Pos)),
      (∀ p ∈ ps, inB n p) →
      ScanInv board n v rs →
      ScanInv board n (ps.foldl (regionStep board n) (v, rs)).1
        (ps.foldl (regionStep board n) (v, rs)).2 ∧
      (∀ x ∈ v, x ∈ (ps.foldl (regionStep board n) (v, rs)).1) ∧
      (∀ p ∈ ps, cellAt board p.2 p.1 = none →
        p ∈ (ps.foldl (regionStep board n) (v, rs)).1) := by
  intro ps
  induction ps with
  | nil =>
    intro v rs _ hinv
    exact ⟨hinv, fun x hx => hx, by simp⟩
  | cons a t ih =>
    intro v rs hB hinv
    have haB : inB n a := hB a (List.mem_cons_self a t)
    obtain ⟨hinv2, hmono2, hself2⟩ := regionStep_inv board n v rs a hinv haB
    have hfold : (a :: t).foldl (regionStep board n) (v, rs) =
        t.foldl (regionStep board n) (regionStep board n (v, rs) a) := rfl
    rw [hfold]
    have hpair : regionStep board n (v, rs) a =
        ((regionStep board n (v, rs) a).1, (regionStep board n (v, rs) a).2) := rfl
    obtain ⟨hinv3, hmono3, hcover3⟩ :=
      ih (regionStep board n (v, rs) a).1 (regionStep board n (v, rs) a).2
        (fun p hp => hB p (List.mem_cons_of_mem a hp)) hinv2
    rw [hpair]
    refine ⟨hinv3, ?_, ?_⟩
    · intro x hx
      exact hmono3 x (hmono2 x hx)
    · intro p hp hE
      rcases List.mem_cons.1 hp with rfl | hpt
      · exact hmono3 p (hself2 hE)
      · exact hcover3 p hpt hE

/-- Helper: the regions found by the territory scan partition the empty
in-bounds cells into maximal 4-connected regions: each region is a
nonempty duplicate-free set of empty in-bounds cells equal to the full
empty-cell component of each of its members; every empty in-bounds cell
lies in exactly one region. -/
theorem scanRegions_partition (board : Board) (n : Nat) :
    (∀ r ∈ scanRegions board n, r ≠ [] ∧ r.Nodup ∧
      (∀ p ∈ r, inB n p ∧ cellAt board p.2 p.1 = none) ∧
      (∀ p ∈ r, ∀ q, q ∈ r ↔ reachEmpty board n p q)) ∧
    (∀ p : Pos, (inB n p ∧ cellAt board p.2 p.1 = none) ↔
      ∃ r ∈ scanRegions board n, p ∈ r) ∧
    List.Pairwise (fun r1 r2 => ∀ x ∈ r1, x ∉ r2) (scanRegions board n) := by
  have hinit : ScanInv board n [] [] := ⟨by simp, by simp, by simp⟩
  obtain ⟨hinv, -, hcover⟩ := scanFold_inv board n (allPositions n) [] []
    (fun p hp => (mem_allPositions n p).1 hp) hinit
  refine ⟨hinv.2.1, ?_, hinv.2.2⟩
  intro p
  constructor
  · rintro ⟨hb, he⟩
    have hp : p ∈ allPositions n := (mem_allPositions n p).2 hb
    exact (hinv.1 p).1 (hcover p hp he)
  · rintro ⟨r, hr, hpr⟩
    exact (hinv.2.1 r hr).2.2.1 p hpr

/-- Helper: territory contribution of one more region. -/
theorem territoryOf_cons (board : Board) (n : Nat) (c : Color) (r : List Pos)
    (rs : List (List Pos)) :
    territoryOf board n c (r :: rs) =
      (if analyzeTerritory board r n = some c then r.length else 0) +
        territoryOf board n c rs := by
  simp [territoryOf]

/-- Helper: the counting loop of the territory scan runs in lockstep with
the region-collecting loop: both thread the same visited set, and the
counters accumulate exactly the lengths of the regions awarded to each
color. -/
theorem territory_lockstep (board : Board) (n : Nat) :
    ∀ (ps : List Pos) (v : List Pos) (bt wt : Nat) (rs : List (List Pos)),
      (ps.foldl (territoryStep board n) (v, bt, wt)).1 =
        (ps.foldl (regionStep board n) (v, rs)).1 ∧
      ∃ newRs,
        (ps.foldl (regionStep board n) (v, rs)).2 = rs ++ newRs ∧
        (ps.foldl (territoryStep board n) (v, bt, wt)).2.1 =
          bt + territoryOf board n .black newRs ∧
        (ps.foldl (territoryStep board n) (v, bt, wt)).2.2 =
          wt + territoryOf board n .white newRs := by
  intro ps
  induction ps with
  | nil =>
    intro v bt wt rs
    exact ⟨rfl, [], by simp, by simp [territoryOf], by simp [territoryOf]⟩
  | cons a t ih =>
    intro v bt wt rs
    by_cases hc : cellAt board a.2 a.1 = none ∧ a ∉ v
    · have hreg : regionStep board n (v, rs) a =
          ((getEmptyRegion board a.1 a.2 n v).2, rs ++ [(getEmptyRegion board a.1 a.2 n v).1]) := by
        simp only [regionStep, if_pos hc]
      cases howner : analyzeTerritory board (getEmptyRegion board a.1 a.2 n v).1 n with
      | none =>
        have hterr : territoryStep board n (v, bt, wt) a =
            ((getEmptyRegion board a.1 a.2 n v).2, bt, wt) := by
          simp only [territoryStep, if_pos hc, howner]
        have hstep : (a :: t).foldl (territoryStep board n) (v, bt, wt) =
            t.foldl (territoryStep board n) ((getEmptyRegion board a.1 a.2 n v).2, bt, wt) := by
          simp only [List.foldl_cons, hterr]
        have hstep2 : (a :: t).foldl (regionStep board n) (v, rs) =
            t.foldl (regionStep board n)
              ((getEmptyRegion board a.1 a.2 n v).2, rs ++ [(getEmptyRegion board a.1 a.2 n v).1]) := by
          simp only [List.foldl_cons, hreg]
        rw [hstep, hstep2]
        obtain ⟨hv, newRs, hg, hb, hw⟩ := ih (getEmptyRegion board a.1 a.2 n v).2 bt wt
          (rs ++ [(getEmptyRegion board a.1 a.2 n v).1])
        refine ⟨hv, (getEmptyRegion board a.1 a.2 n v).1 :: newRs, ?_, ?_, ?_⟩
        · rw [hg, List.append_assoc]
          rfl
        · rw [hb, territoryOf_cons, howner]
          simp
        · rw [hw, territoryOf_cons, howner]
          simp
      | some c =>
        cases c with
        | black =>
          have hterr : territoryStep board n (v, bt, wt) a =
              ((getEmptyRegion board a.1 a.2 n v).2,
                bt + (getEmptyRegion board a.1 a.2 n v).1.length, wt) := by
            simp only [territoryStep, if_pos hc, howner]
          have hstep : (a :: t).foldl (territoryStep board n) (v, bt, wt) =
              t.foldl (territoryStep board n)
                ((getEmptyRegion board a.1 a.2 n v).2,
                  bt + (getEmptyRegion board a.1 a.2 n v).1.length, wt) := by
            simp only [List.foldl_cons, hterr]
          have hstep2 : (a :: t).foldl (regionStep board n) (v, rs) =
              t.foldl (regionStep board n)
                ((getEmptyRegion board a.1 a.2 n v).2,
                  rs ++ [(getEmptyRegion board a.1 a.2 n v).1]) := by
            simp only [List.foldl_cons, hreg]
          rw [hstep, hstep2]
          obtain ⟨hv, newRs, hg, hb, hw⟩ :=
            ih (getEmptyRegion board a.1 a.2 n v).2
              (bt + (getEmptyRegion board a.1 a.2 n v).1.length) wt
              (rs ++ [(getEmptyRegion board a.1 a.2 n v).1])
          refine ⟨hv, (getEmptyRegion board a.1 a.2 n v).1 :: newRs, ?_, ?_, ?_⟩
          · rw [hg, List.append_assoc]
            rfl
          · rw [hb, territoryOf_cons, howner]
            rw [if_pos rfl]
            omega
          · rw [hw, territoryOf_cons, howner]
            simp
        | white =>
          have hterr : territoryStep board n (v, bt, wt) a =
              ((getEmptyRegion board a.1 a.2 n v).2, bt,
                wt + (getEmptyRegion board a.1 a.2 n v).1.length) := by
            simp only [territoryStep, if_pos hc, howner]
          have hstep : (a :: t).foldl (territoryStep board n) (v, bt, wt) =
              t.foldl (territoryStep board n)
                ((getEmptyRegion board a.1 a.2 n v).2, bt,
                  wt + (getEmptyRegion board a.1 a.2 n v).1.length) := by
            simp only [List.foldl_cons, hterr]
          have hstep2 : (a :: t).foldl (regionStep board n) (v, rs) =
              t.foldl (regionStep board n)
                ((getEmptyRegion board a.1 a.2 n v).2,
                  rs ++ [(getEmptyRegion board a.1 a.2 n v).1]) := by
            simp only [List.foldl_cons, hreg]
          rw [hstep, hstep2]
          obtain ⟨hv, newRs, hg, hb, hw⟩ :=
            ih (getEmptyRegion board a.1 a.2 n v).2 bt
              (wt + (getEmptyRegion board a.1 a.2 n v).1.length)
              (rs ++ [(getEmptyRegion board a.1 a.2 n v).1])
          refine ⟨hv, (getEmptyRegion board a.1 a.2 n v).1 :: newRs, ?_, ?_, ?_⟩
          · rw [hg, List.append_assoc]
            rfl
          · rw [hb, territoryOf_cons, howner]
            simp
          · rw [hw, territoryOf_cons, howner]
            rw [if_pos rfl]
            omega
    · have hterr : territoryStep board n (v, bt, wt) a = (v, bt, wt) := by
        simp only [territoryStep, if_neg hc]
      have hreg : regionStep board n (v, rs) a = (v, rs) := by
        simp only [regionStep, if_neg hc]
      have hstep : (a :: t).foldl (territoryStep board n) (v, bt, wt) =
          t.foldl (territoryStep board n) (v, bt, wt) := by
        simp only [List.foldl_cons, hterr]
      have hstep2 : (a :: t).foldl (regionStep board n) (v, rs) =
          t.foldl (regionStep board n) (v, rs) := by
        simp only [List.foldl_cons, hreg]
      rw [hstep, hstep2]
      exact ih v bt wt rs

/-- Helper: the two components of territoryScan are exactly the summed
lengths of the scan's regions awarded to black and to white. -/
theorem territoryScan_eq_territoryOf (board : Board) (n : Nat) :
    (territoryScan board n).1 =
      territoryOf board n .black (scanRegions board n) ∧
    (territoryScan board n).2 =
      territoryOf board n .white (scanRegions board n) := by
  obtain ⟨-, newRs, hg, hb, hw⟩ := territory_lockstep board n (allPositions n) [] 0 0 []
  rw [List.nil_append] at hg
  constructor
  · show ((allPositions n).foldl (territoryStep board n) ([], 0, 0)).2.1 = _
    rw [hb]
    rw [show scanRegions board n = newRs from hg]
    omega
  · show ((allPositions n).foldl (territoryStep board n) ([], 0, 0)).2.2 = _
    rw [hw]
    rw [show scanRegions board n = newRs from hg]
    omega

/-- Helper: the winner selection of scoreChinese picks a color exactly on
a strictly higher score and nobody on a tie. -/
theorem winner_selection (b w : Rat) :
    ((if b - w > 0 then some Color.black else if b - w < 0 then some Color.white else none)
        = some Color.black ↔ w < b) ∧
    ((if b - w > 0 then some Color.black else if b - w < 0 then some Color.white else none)
        = some Color.white ↔ b < w) ∧
    ((if b - w > 0 then some Color.black else if b - w < 0 then some Color.white else none)
        = none ↔ b = w) := by
  rcases lt_trichotomy b w with h | h | h
  · have h1 : ¬(b - w > 0) := by
      rw [gt_iff_lt, sub_pos]
      exact not_lt.2 h.le
    have h2 : b - w < 0 := sub_neg.2 h
    rw [if_neg h1, if_pos h2]
    exact ⟨iff_of_false (by simp) (not_lt.2 h.le),
      iff_of_true rfl h, iff_of_false (by simp) h.ne⟩
  · subst h
    have h0 : b - b = 0 := sub_self b
    have h1 : ¬(b - b > 0) := by rw [h0]; simp
    have h2 : ¬(b - b < 0) := by rw [h0]; simp
    rw [if_neg h1, if_neg h2]
    exact ⟨iff_of_false (by simp) (lt_irrefl b),
      iff_of_false (by simp) (lt_irrefl b), iff_of_true rfl rfl⟩
  · have h1 : b - w > 0 := by
      rw [gt_iff_lt, sub_pos]
      exact h
    rw [if_pos h1]
    exact ⟨iff_of_true rfl h, iff_of_false (by simp) (not_lt.2 h.le),
      iff_of_false (by simp) h.ne'⟩

/-- Helper: a region touches a color exactly when some cell of the region
has a neighbour holding a stone of that color. -/
theorem regionTouches_iff (board : Board) (region : List Pos) (n : Nat) (c : Color) :
    regionTouches board region n c = true ↔
      ∃ p ∈ region, ∃ a ∈ getAdjacentPositions p.1 p.2 n, cellAt board a.2 a.1 = some c := by
  simp [regionTouches, List.any_eq_true]

/-- Helper: the inner neighbour scan of the touching-colors accumulator
just ORs in the presence of each color among the scanned cells. -/
theorem touching_fold_inner (board : Board) :
    ∀ (l : List Pos) (tc : Bool × Bool),
      l.foldl (fun tc2 a =>
        match cellAt board a.2 a.1 with
        | some .black => (true, tc2.2)
        | some .white => (tc2.1, true)
        | none => tc2) tc =
      (tc.1 || l.any (fun a => decide (cellAt board a.2 a.1 = some .black)),
       tc.2 || l.any (fun a => decide (cellAt board a.2 a.1 = some .white))) := by
  intro l
  induction l with
  | nil => intro tc; simp
  | cons a rest ih =>
    intro tc
    rw [List.foldl_cons]
    cases hcell : cellAt board a.2 a.1 with
    | none =>
      rw [ih]
      simp [hcell]
    | some c =>
      cases c with
      | black =>
        rw [ih]
        simp [hcell]
      | white =>
        rw [ih]
        simp [hcell]

/-- Helper: the touching-colors accumulator computes exactly the two
border flags. -/
theorem touchingColorsOf_spec (board : Board) (n : Nat) :
    ∀ (region : List Pos),
      touchingColorsOf board region n =
        (regionTouches board region n .black, regionTouches board region n .white) := by
  suffices h : ∀ (region : List Pos) (tc : Bool × Bool),
      region.foldl (fun tc p =>
        (getAdjacentPositions p.1 p.2 n).foldl (fun tc2 a =>
          match cellAt board a.2 a.1 with
          | some .black => (true, tc2.2)
          | some .white => (tc2.1, true)
          | none => tc2) tc) tc =
      (tc.1 || regionTouches board region n .black,
       tc.2 || regionTouches board region n .white) by
    intro region
    rw [touchingColorsOf, h region (false, false)]
    simp
  intro region
  induction region with
  | nil => intro tc; simp [regionTouches]
  | cons p rest ih =>
    intro tc
    rw [List.foldl_cons, touching_fold_inner board, ih]
    simp only [regionTouches, List.any_cons]
    simp [Bool.or_assoc]

/-- Helper: analyzeTerritory awards a region to a color exactly when that
color borders it and the other color does not. -/
theorem analyzeTerritory_iff (board : Board) (region : List Pos) (n : Nat) (c : Color) :
    analyzeTerritory board region n = some c ↔
      regionTouches board region n c = true ∧
        regionTouches board region n c.opponent = false := by
  cases c <;>
    cases hb : regionTouches board region n .black <;>
      cases hw : regionTouches board region n .white <;>
        simp [analyzeTerritory, touchingColorsOf_spec, hb, hw, Color.opponent]

/-- C5: for every game state, scoreChinese computes each color's score as
its stones plus its territory from the empty-region scan, komi being
added to white's score; the scan's territory counters sum exactly the
lengths of the regions awarded to each color, where the regions found
partition the empty in-bounds cells into maximal 4-connected regions
(each is a nonempty duplicate-free set of empty cells equal to the full
empty-cell component of each of its members, every empty cell lies in
exactly one of them); a region is awarded to a color exactly when that
color and only that color borders it; the winner is the color with the
strictly higher score (none on a tie); scoreDiff is the absolute score
difference; and the concrete 9x9 game with komi 0.5 in which both
players pass immediately scores black 0, white 0.5, winner white,
scoreDiff 0.5. -/
theorem scoreChinese_matches_claim
    (s : GameState) (board : Board) (region : List Pos) (n : Nat) (c : Color) :
    (scoreChineseS s).black =
      (countStones s.board s.boardSize .black : Rat) +
        ((territoryScan s.board s.boardSize).1 : Rat) ∧
    (scoreChineseS s).white =
      (countStones s.board s.boardSize .white : Rat) +
        ((territoryScan s.board s.boardSize).2 : Rat) + s.komi ∧
    (territoryScan board n).1 = territoryOf board n .black (scanRegions board n) ∧
    (territoryScan board n).2 = territoryOf board n .white (scanRegions board n) ∧
    (∀ r ∈ scanRegions board n, r ≠ [] ∧ r.Nodup ∧
      (∀ p ∈ r, inB n p ∧ cellAt board p.2 p.1 = none) ∧
      (∀ p ∈ r, ∀ q, q ∈ r ↔ reachEmpty board n p q)) ∧
    (∀ p : Pos, (inB n p ∧ cellAt board p.2 p.1 = none) ↔
      ∃ r ∈ scanRegions board n, p ∈ r) ∧
    List.Pairwise (fun r1 r2 => ∀ x ∈ r1, x ∉ r2) (scanRegions board n) ∧
    ((scoreChineseS s).winner = some .black ↔
      (scoreChineseS s).white < (scoreChineseS s).black) ∧
    ((scoreChineseS s).winner = some .white ↔
      (scoreChineseS s).black < (scoreChineseS s).white) ∧
    ((scoreChineseS s).winner = none ↔ (scoreChineseS s).black = (scoreChineseS s).white) ∧
    (scoreChineseS s).scoreDiff = |(scoreChineseS s).black - (scoreChineseS s).white| ∧
    (analyzeTerritory board region n = some c ↔
      regionTouches board region n c = true ∧
        regionTouches board region n c.opponent = false) ∧
    scoreChineseS twoPassState =
      { black := 0, white := 0.5, winner := some .white, scoreDiff := 0.5, komi := 0.5 } := by
  refine ⟨rfl, rfl, (territoryScan_eq_territoryOf board n).1,
    (territoryScan_eq_territoryOf board n).2,
    (scanRegions_partition board n).1, (scanRegions_partition board n).2.1,
    (scanRegions_partition board n).2.2,
    ?_, ?_, ?_, rfl, analyzeTerritory_iff board region n c, ?_⟩
  · exact (winner_selection _ _).1
  · exact (winner_selection _ _).2.1
  · exact (winner_selection _ _).2.2
  · have hb : countStones twoPassState.board twoPassState.boardSize .black = 0 := by decide
    have hw : countStones twoPassState.board twoPassState.boardSize .white = 0 := by decide
    have ht : territoryScan twoPassState.board twoPassState.boardSize = (0, 0) := by
      set_option maxRecDepth 100000 in decide
    have hk : twoPassState.komi = 0.5 := rfl
    simp only [scoreChineseS, hb, hw, ht, hk, ScoreResult.mk.injEq]
    norm_num

end Sekigo
